import Mathlib

/-!
Verification development for the metasched laboratory-automation scheduler.

Conventions used throughout this embedding:
* wall-clock instants (`datetime`) are modelled as integer seconds since the
  epoch, so `datetime.timestamp()` is the integer itself and
  `datetime.fromtimestamp(n)` is `n`;
* durations (`timedelta`) are modelled as integer seconds
  (`timedelta.total_seconds()` is the integer itself, and the `int(...)`
  truncations in the optimizer are exact);
* `uuid.UUID` identifiers are modelled as natural numbers.
-/

namespace Metasched

/-- Decidable equality of `Except` values, used to evaluate the embedded
fallible functions on concrete inputs. -/
instance {ε α : Type} [DecidableEq ε] [DecidableEq α] : DecidableEq (Except ε α) :=
  fun a b =>
    match a, b with
    | .error e, .error e' =>
      match decEq e e' with
      | isTrue h => isTrue (by rw [h])
      | isFalse h => isFalse (by intro hh; cases hh; exact h rfl)
    | .ok v, .ok v' =>
      match decEq v v' with
      | isTrue h => isTrue (by rw [h])
      | isFalse h => isFalse (by intro hh; cases hh; exact h rfl)
    | .error _, .ok _ => isFalse (by intro h; cases h)
    | .ok _, .error _ => isFalse (by intro h; cases h)

/-- `FromType` from `src/protocol.py`: anchor selector of a `Delay`. -/
inductive FromType where
  | START
  | FINISH
deriving DecidableEq, Repr

/-- Modelled from the spec: the runtime protocol-graph node type used by
`src/optimizer.py` and `src/executor.py` (`src.protocol.Start` / `Protocol` /
`Delay`).  This evolved protocol module is not present under `src/` — the
`protocol.py` that is present lacks the `id`, `scheduled_time`, `started_time`
and `finished_time` fields its callers use — so the data type is modelled from
the spec's data model section: every node has a stable identifier, `Protocol`
carries a name, a duration and three optional time fields, `Delay` carries a
duration, a `from_type` and an offset, and every node has a list of successor
(`post_node`) children. -/
inductive PTree where
  | start (id : Nat) (post : List PTree)
  | protocol (id : Nat) (name : String) (duration : Int)
      (scheduledTime startedTime finishedTime : Option Int) (post : List PTree)
  | delay (id : Nat) (duration : Int) (fromType : FromType) (offset : Int)
      (post : List PTree)

mutual

/-- Decidable equality for `PTree` (hand-written because `deriving` does not
handle the nested `List` occurrence). -/
def PTree.deq : (a b : PTree) → Decidable (a = b)
  | .start i p, .start i' p' =>
    match Nat.decEq i i', PTree.deqList p p' with
    | isTrue h1, isTrue h2 => isTrue (by rw [h1, h2])
    | isFalse h1, _ => isFalse (by intro hh; cases hh; exact h1 rfl)
    | _, isFalse h2 => isFalse (by intro hh; cases hh; exact h2 rfl)
  | .start _ _, .protocol _ _ _ _ _ _ _ => isFalse (by intro h; cases h)
  | .start _ _, .delay _ _ _ _ _ => isFalse (by intro h; cases h)
  | .protocol _ _ _ _ _ _ _, .start _ _ => isFalse (by intro h; cases h)
  | .protocol _ _ _ _ _ _ _, .delay _ _ _ _ _ => isFalse (by intro h; cases h)
  | .delay _ _ _ _ _, .start _ _ => isFalse (by intro h; cases h)
  | .delay _ _ _ _ _, .protocol _ _ _ _ _ _ _ => isFalse (by intro h; cases h)
  | .protocol i nm d sc st fi p, .protocol i' nm' d' sc' st' fi' p' =>
    match Nat.decEq i i', decEq nm nm', decEq d d', decEq sc sc', decEq st st',
        decEq fi fi', PTree.deqList p p' with
    | isTrue h1, isTrue h2, isTrue h3, isTrue h4, isTrue h5, isTrue h6, isTrue h7 =>
      isTrue (by rw [h1, h2, h3, h4, h5, h6, h7])
    | isFalse h1, _, _, _, _, _, _ => isFalse (by intro hh; cases hh; exact h1 rfl)
    | _, isFalse h2, _, _, _, _, _ => isFalse (by intro hh; cases hh; exact h2 rfl)
    | _, _, isFalse h3, _, _, _, _ => isFalse (by intro hh; cases hh; exact h3 rfl)
    | _, _, _, isFalse h4, _, _, _ => isFalse (by intro hh; cases hh; exact h4 rfl)
    | _, _, _, _, isFalse h5, _, _ => isFalse (by intro hh; cases hh; exact h5 rfl)
    | _, _, _, _, _, isFalse h6, _ => isFalse (by intro hh; cases hh; exact h6 rfl)
    | _, _, _, _, _, _, isFalse h7 => isFalse (by intro hh; cases hh; exact h7 rfl)
  | .delay i d f o p, .delay i' d' f' o' p' =>
    match Nat.decEq i i', decEq d d', decEq f f', decEq o o', PTree.deqList p p' with
    | isTrue h1, isTrue h2, isTrue h3, isTrue h4, isTrue h5 =>
      isTrue (by rw [h1, h2, h3, h4, h5])
    | isFalse h1, _, _, _, _ => isFalse (by intro hh; cases hh; exact h1 rfl)
    | _, isFalse h2, _, _, _ => isFalse (by intro hh; cases hh; exact h2 rfl)
    | _, _, isFalse h3, _, _ => isFalse (by intro hh; cases hh; exact h3 rfl)
    | _, _, _, isFalse h4, _ => isFalse (by intro hh; cases hh; exact h4 rfl)
    | _, _, _, _, isFalse h5 => isFalse (by intro hh; cases hh; exact h5 rfl)

def PTree.deqList : (a b : List PTree) → Decidable (a = b)
  | [], [] => isTrue rfl
  | [], _ :: _ => isFalse (by intro h; cases h)
  | _ :: _, [] => isFalse (by intro h; cases h)
  | c :: cs, d :: ds =>
    match PTree.deq c d, PTree.deqList cs ds with
    | isTrue h1, isTrue h2 => isTrue (by rw [h1, h2])
    | isFalse h1, _ => isFalse (by intro hh; cases hh; exact h1 rfl)
    | _, isFalse h2 => isFalse (by intro hh; cases hh; exact h2 rfl)

end

instance : DecidableEq PTree := PTree.deq

mutual

/-- `Node.flatten` from the protocol module: pre-order list of all nodes
reachable from the receiver (each node still carrying its subtree). -/
def PTree.flat : PTree → List PTree
  | .start i post => .start i post :: PTree.flatList post
  | .protocol i nm d sc st fi post =>
      .protocol i nm d sc st fi post :: PTree.flatList post
  | .delay i d f o post => .delay i d f o post :: PTree.flatList post

def PTree.flatList : List PTree → List PTree
  | [] => []
  | c :: cs => PTree.flat c ++ PTree.flatList cs

end

/-- `started_time` of a node when it is a `Protocol` with that field set
(`isinstance(p, protocol.Protocol) and p.started_time is not None`). -/
def startedOf : PTree → Option Int
  | .protocol _ _ _ _ st _ _ => st
  | _ => none

/-- The list of `started_time.timestamp()` values collected by the generator
inside `get_oldest_time` (`src/optimizer.py`, `get_oldest_time`). -/
def startedTimes (nodes : List PTree) : List Int :=
  nodes.filterMap startedOf

/-- `get_oldest_time` from `src/optimizer.py`: `min` of the started
timestamps with `default=0`; if the minimum is `0` the present moment `now`
is returned, otherwise the minimum itself (as an instant). -/
def getOldestTime (nodes : List PTree) (now : Int) : Int :=
  let minTime : Int :=
    match startedTimes nodes with
    | [] => 0
    | t :: ts => ts.foldl min t
  if minTime = 0 then now else minTime

/-- `sum_durations` from `src/optimizer.py`: total of the durations of all
`Protocol` and `Delay` nodes in the list. -/
def sumDurations (nodes : List PTree) : Int :=
  nodes.foldl
    (fun acc n =>
      match n with
      | .protocol _ _ d _ _ _ _ => acc + d
      | .delay _ d _ _ _ => acc + d
      | .start _ _ => acc)
    0

/-- The optimizer-local node type of `src/optimizer.py` (`optimizer.Start` /
`optimizer.Protocol` / `optimizer.Delay`): same shape as the protocol graph
but with observed times already converted to integer second offsets from the
reference instant, and without `scheduled_time`.  (The CP-SAT decision
variables stored on these dataclasses are represented symbolically, keyed by
the node identifier — see `CVar`.) -/
inductive ONode where
  | start (id : Nat) (post : List ONode)
  | protocol (id : Nat) (name : String) (duration : Int)
      (startedTime finishedTime : Option Int) (post : List ONode)
  | delay (id : Nat) (duration : Int) (fromType : FromType) (offset : Int)
      (post : List ONode)

mutual

/-- Decidable equality for `ONode`, hand-written like `PTree.deq`. -/
def ONode.deq : (a b : ONode) → Decidable (a = b)
  | .start i p, .start i' p' =>
    match Nat.decEq i i', ONode.deqList p p' with
    | isTrue h1, isTrue h2 => isTrue (by rw [h1, h2])
    | isFalse h1, _ => isFalse (by intro hh; cases hh; exact h1 rfl)
    | _, isFalse h2 => isFalse (by intro hh; cases hh; exact h2 rfl)
  | .start _ _, .protocol _ _ _ _ _ _ => isFalse (by intro h; cases h)
  | .start _ _, .delay _ _ _ _ _ => isFalse (by intro h; cases h)
  | .protocol _ _ _ _ _ _, .start _ _ => isFalse (by intro h; cases h)
  | .protocol _ _ _ _ _ _, .delay _ _ _ _ _ => isFalse (by intro h; cases h)
  | .delay _ _ _ _ _, .start _ _ => isFalse (by intro h; cases h)
  | .delay _ _ _ _ _, .protocol _ _ _ _ _ _ => isFalse (by intro h; cases h)
  | .protocol i nm d st fi p, .protocol i' nm' d' st' fi' p' =>
    match Nat.decEq i i', decEq nm nm', decEq d d', decEq st st', decEq fi fi',
        ONode.deqList p p' with
    | isTrue h1, isTrue h2, isTrue h3, isTrue h4, isTrue h5, isTrue h6 =>
      isTrue (by rw [h1, h2, h3, h4, h5, h6])
    | isFalse h1, _, _, _, _, _ => isFalse (by intro hh; cases hh; exact h1 rfl)
    | _, isFalse h2, _, _, _, _ => isFalse (by intro hh; cases hh; exact h2 rfl)
    | _, _, isFalse h3, _, _, _ => isFalse (by intro hh; cases hh; exact h3 rfl)
    | _, _, _, isFalse h4, _, _ => isFalse (by intro hh; cases hh; exact h4 rfl)
    | _, _, _, _, isFalse h5, _ => isFalse (by intro hh; cases hh; exact h5 rfl)
    | _, _, _, _, _, isFalse h6 => isFalse (by intro hh; cases hh; exact h6 rfl)
  | .delay i d f o p, .delay i' d' f' o' p' =>
    match Nat.decEq i i', decEq d d', decEq f f', decEq o o', ONode.deqList p p' with
    | isTrue h1, isTrue h2, isTrue h3, isTrue h4, isTrue h5 =>
      isTrue (by rw [h1, h2, h3, h4, h5])
    | isFalse h1, _, _, _, _ => isFalse (by intro hh; cases hh; exact h1 rfl)
    | _, isFalse h2, _, _, _ => isFalse (by intro hh; cases hh; exact h2 rfl)
    | _, _, isFalse h3, _, _ => isFalse (by intro hh; cases hh; exact h3 rfl)
    | _, _, _, isFalse h4, _ => isFalse (by intro hh; cases hh; exact h4 rfl)
    | _, _, _, _, isFalse h5 => isFalse (by intro hh; cases hh; exact h5 rfl)

def ONode.deqList : (a b : List ONode) → Decidable (a = b)
  | [], [] => isTrue rfl
  | [], _ :: _ => isFalse (by intro h; cases h)
  | _ :: _, [] => isFalse (by intro h; cases h)
  | c :: cs, d :: ds =>
    match ONode.deq c d, ONode.deqList cs ds with
    | isTrue h1, isTrue h2 => isTrue (by rw [h1, h2])
    | isFalse h1, _ => isFalse (by intro hh; cases hh; exact h1 rfl)
    | _, isFalse h2 => isFalse (by intro hh; cases hh; exact h2 rfl)

end

instance : DecidableEq ONode := ONode.deq

/-- Whether an optimizer node is an `optimizer.Protocol`. -/
def ONode.isProt : ONode → Bool
  | .protocol _ _ _ _ _ _ => true
  | _ => false

mutual

/-- `protocol_to_opt` from `src/optimizer.py`: convert a protocol-graph node
to the optimizer-local node type.  Children are converted first; a `Start`
child raises `ValueError` (it is neither `Protocol` nor `Delay`); observed
`started_time` / `finished_time` instants are converted to integer offsets
from the reference instant `t0` (`int(tsc.time_to_seconds(...))`, exact over
integer seconds); a `Delay` whose converted children are not all `Protocol`s
raises `ValueError`, and otherwise keeps the (then unchanged) filtered list. -/
def protocolToOpt (t0 : Int) : PTree → Except String ONode
  | .start i post =>
    match optChildren t0 post with
    | .error e => .error e
    | .ok posts => .ok (.start i posts)
  | .protocol i nm dur _sc st fi post =>
    match optChildren t0 post with
    | .error e => .error e
    | .ok posts =>
        .ok (.protocol i nm dur (st.map (· - t0)) (fi.map (· - t0)) posts)
  | .delay i dur ft off post =>
    match optChildren t0 post with
    | .error e => .error e
    | .ok posts =>
        if posts.all ONode.isProt then
          .ok (.delay i dur ft off (posts.filter ONode.isProt))
        else .error "Protocol expected as post_node"

def optChildren (t0 : Int) : List PTree → Except String (List ONode)
  | [] => .ok []
  | c :: cs =>
    match c with
    | .start _ _ => .error "Protocol or Delay expected as post_node"
    | .protocol i nm dur sc st fi post =>
      match protocolToOpt t0 (.protocol i nm dur sc st fi post) with
      | .error e => .error e
      | .ok r =>
        match optChildren t0 cs with
        | .error e => .error e
        | .ok rs => .ok (r :: rs)
    | .delay i dur ft off post =>
      match protocolToOpt t0 (.delay i dur ft off post) with
      | .error e => .error e
      | .ok r =>
        match optChildren t0 cs with
        | .error e => .error e
        | .ok rs => .ok (r :: rs)

end

mutual

/-- Pre-order flatten of the optimizer tree (`Node.flatten` in
`src/optimizer.py`). -/
def ONode.flat : ONode → List ONode
  | .start i post => .start i post :: ONode.flatList post
  | .protocol i nm d st fi post => .protocol i nm d st fi post :: ONode.flatList post
  | .delay i d f o post => .delay i d f o post :: ONode.flatList post

def ONode.flatList : List ONode → List ONode
  | [] => []
  | c :: cs => ONode.flat c ++ ONode.flatList cs

end

mutual

/-- Pre-order flatten of the optimizer tree, pairing every node with its
`pre_node` (the tree parent, set by the dataclass `__post_init__` chain during
`protocol_to_opt`; `none` for the root). -/
def ONode.flatPre (pre : Option ONode) (n : ONode) : List (Option ONode × ONode) :=
  match n with
  | .start i post =>
      (pre, .start i post) :: ONode.flatPreList (some (.start i post)) post
  | .protocol i nm d st fi post =>
      (pre, .protocol i nm d st fi post) ::
        ONode.flatPreList (some (.protocol i nm d st fi post)) post
  | .delay i d f o post =>
      (pre, .delay i d f o post) :: ONode.flatPreList (some (.delay i d f o post)) post

def ONode.flatPreList (pre : Option ONode) : List ONode → List (Option ONode × ONode)
  | [] => []
  | c :: cs => ONode.flatPre pre c ++ ONode.flatPreList pre cs

end

/-- The CP-SAT integer variables created by the model construction, keyed by
node identifier (the source names them `f"{id}_start_time"` and so on). -/
inductive CVar where
  | startT (id : Nat)
  | finishT (id : Nat)
  | lossV (id : Nat)
  | makespan
deriving DecidableEq, Repr

/-- Syntactic linear expressions over the CP variables, mirroring the
expression trees built by the Python operator overloading. -/
inductive LExpr where
  | var (v : CVar)
  | const (c : Int)
  | sub (a b : LExpr)
  | add (a b : LExpr)
deriving DecidableEq, Repr

/-- A constraint posted with `model.Add(...)`. -/
inductive Constr where
  | eqC (a b : LExpr)
  | geC (a b : LExpr)
  | leC (a b : LExpr)
deriving DecidableEq, Repr

/-- The CP-SAT model state: declared integer variables with their bounds, the
posted constraints in order, the interval list passed to `AddNoOverlap`, and
the minimised objective. -/
structure CPModel where
  vars : List (CVar × Int × Int)
  constraints : List Constr
  intervals : List Nat
  objective : Option LExpr
deriving DecidableEq, Repr

/-- `model.NewIntVar(lb, ub, name)`. -/
def addVar (m : CPModel) (v : CVar) (lb ub : Int) : CPModel :=
  { m with vars := m.vars ++ [(v, lb, ub)] }

/-- `model.Add(c)`. -/
def addConstr (m : CPModel) (c : Constr) : CPModel :=
  { m with constraints := m.constraints ++ [c] }

/-- `Protocol.set_vars` from `src/optimizer.py`: declare `start_time` and
`finish_time` in `[0, max_time]`; if `started_time` is set, fix
`start_time == started_time` and, if `finished_time` is also set, fix
`finish_time == finished_time` and return early (no interval); otherwise
create the node's `NewIntervalVar` (reported here as `some id`, the interval
later collected for `AddNoOverlap`). -/
def setVars (id : Nat) (startedOff finishedOff : Option Int) (maxTime : Int)
    (m : CPModel) : CPModel × Option Nat :=
  let m1 := addVar m (.startT id) 0 maxTime
  let m2 := addVar m1 (.finishT id) 0 maxTime
  match startedOff with
  | some s =>
    let m3 := addConstr m2 (.eqC (.var (.startT id)) (.const s))
    match finishedOff with
    | some f => (addConstr m3 (.eqC (.var (.finishT id)) (.const f)), none)
    | none => (m3, some id)
  | none => (m2, some id)

/-- The per-child body of `Delay.set_loss`: for every successor, when the
delay's `pre_node` is a `Protocol` and the successor is a `Protocol` (their
`finish_time` / `start_time` variables are always non-`None` here because
`set_vars` has run on every `Protocol` node), post
`loss >= diff - target` and `loss <= diff - target` where
`diff = post_node.start_time - self.pre_node.finish_time` and
`target = self.duration + self.offset`. -/
def lossChildLoop (pre : Option ONode) (did : Nat) (target : Int) :
    CPModel → List ONode → CPModel
  | m, [] => m
  | m, c :: cs =>
    match pre, c with
    | some (.protocol pid _ _ _ _ _), .protocol cid _ _ _ _ _ =>
      let diff := LExpr.sub (.var (.startT cid)) (.var (.finishT pid))
      let e := LExpr.sub diff (.const target)
      let m1 := addConstr m (.geC (.var (.lossV did)) e)
      let m2 := addConstr m1 (.leC (.var (.lossV did)) e)
      lossChildLoop pre did target m2 cs
    | _, _ => lossChildLoop pre did target m cs

/-- `Delay.set_loss` from `src/optimizer.py`: create the delay's `loss`
variable in `[0, duration * 2]` (`max_duration_times = 2`), then post the
per-successor constraints.  For non-delay nodes the model is unchanged (the
function is only invoked on the `Delay` nodes of the flatten). -/
def setLoss (m : CPModel) (pre : Option ONode) : ONode → CPModel
  | .delay did ddur _ft doff post =>
    let m1 := addVar m (.lossV did) 0 (ddur * 2)
    lossChildLoop pre did (ddur + doff) m1 post
  | _ => m

/-- One iteration of the `for node in protocol_nodes` loop of
`optimize_schedule`: run `set_vars`, collect the node's interval when one was
created, and post `makespan >= node.finish_time` (the `is not None` guards on
the variables always hold). -/
def protStep (maxTime : Int) (acc : CPModel × List Nat) (n : ONode) :
    CPModel × List Nat :=
  match n with
  | .protocol pid _ _ st fi _ =>
    let (m1, iv) := setVars pid st fi maxTime acc.1
    let ivs :=
      match iv with
      | some i => acc.2 ++ [i]
      | none => acc.2
    (addConstr m1 (.geC (.var .makespan) (.var (.finishT pid))), ivs)
  | _ => acc

/-- The ordering loop of `optimize_schedule`: for every `Protocol` node and
every `Protocol` successor, post `node.finish_time <= post_node.start_time`. -/
def orderStep (m : CPModel) (n : ONode) : CPModel :=
  match n with
  | .protocol pid _ _ _ _ post =>
    post.foldl
      (fun acc c =>
        match c with
        | .protocol cid _ _ _ _ _ =>
            addConstr acc (.leC (.var (.finishT pid)) (.var (.startT cid)))
        | _ => acc)
      m
  | _ => m

/-- The `Delay` nodes of the flatten together with their `pre_node`s. -/
def delaysWithPre (opt : ONode) : List (Option ONode × ONode) :=
  (ONode.flatPre none opt).filter fun pn =>
    match pn.2 with
    | .delay _ _ _ _ _ => true
    | _ => false

/-- The `Protocol` nodes of the flatten, in pre-order
(`[node for node in opt_protocol.flatten() if isinstance(node, Protocol)]`). -/
def protocolNodesOf (opt : ONode) : List ONode :=
  (ONode.flat opt).filter ONode.isProt

/-- The model-construction part of `optimize_schedule` from
`src/optimizer.py`: compute the horizon and the reference instant, convert
the graph, declare `makespan`, run `set_vars` over the `Protocol` nodes
collecting intervals, post `AddNoOverlap(intervals)`, post the precedence
constraints, run `set_loss` over the `Delay` nodes, and set the objective
`makespan + sum(losses)`.  Returns the finished model, the converted tree and
the reference instant. -/
def buildModel (root : PTree) (now : Int) : Except String (CPModel × ONode × Int) :=
  let maxTime := sumDurations (PTree.flat root)
  let t0 := getOldestTime (PTree.flat root) now
  match protocolToOpt t0 root with
  | .error e => .error e
  | .ok opt =>
    let protNodes := protocolNodesOf opt
    let delayNodes := delaysWithPre opt
    let m0 : CPModel := ⟨[], [], [], none⟩
    let m1 := addVar m0 .makespan 0 maxTime
    let (m2, ivs) := protNodes.foldl (protStep maxTime) (m1, [])
    let m3 : CPModel := { m2 with intervals := ivs }
    let m4 := protNodes.foldl orderStep m3
    let m5 := delayNodes.foldl (fun acc pn => setLoss acc pn.1 pn.2) m4
    let losses := delayNodes.filterMap fun pn =>
      match pn.2 with
      | .delay did _ _ _ _ => some did
      | _ => none
    let obj := LExpr.add (.var .makespan)
      (losses.foldl (fun e l => LExpr.add e (.var (.lossV l))) (.const 0))
    .ok ({ m5 with objective := some obj }, opt, t0)

/-- The CP-SAT solver status relevant to `optimize_schedule`
(`cp_model.OPTIMAL` etc.). -/
inductive CpStatus where
  | OPTIMAL
  | FEASIBLE
  | INFEASIBLE
  | MODEL_INVALID
  | UNKNOWN
deriving DecidableEq, Repr

mutual

/-- Modelled from the spec: writing `scheduled_time` through
`start.get_node(node.id)` followed by an attribute assignment.  `get_node` is
part of the evolved protocol module that is not under `src/`; the spec states
that identifiers are stable and unique, so assigning to the node returned for
an identifier is modelled as updating the node(s) carrying that identifier.
Only `Protocol` nodes are updated (`isinstance(p_node, protocol.Protocol)`). -/
def setSchedAll (i : Nat) (v : Int) : PTree → PTree
  | .start j post => .start j (setSchedAllList i v post)
  | .protocol j nm d sc st fi post =>
    if j = i then .protocol j nm d (some v) st fi (setSchedAllList i v post)
    else .protocol j nm d sc st fi (setSchedAllList i v post)
  | .delay j d f o post => .delay j d f o (setSchedAllList i v post)

def setSchedAllList (i : Nat) (v : Int) : List PTree → List PTree
  | [] => []
  | c :: cs => setSchedAll i v c :: setSchedAllList i v cs

end

/-- The identifier of an optimizer node. -/
def ONode.idOf : ONode → Nat
  | .start i _ => i
  | .protocol i _ _ _ _ _ => i
  | .delay i _ _ _ _ => i

/-- The write-back loop of `optimize_schedule` on `OPTIMAL`: for every
`Protocol` node of the model (whose `start_time` / `finish_time` variables
are always non-`None`), write
`scheduled_time = tsc.seconds_to_time(solver.Value(start_time))`, i.e.
`t0 + value`, into the graph node with that identifier. -/
def writeBack (root : PTree) (t0 : Int) (sol : CVar → Int) (ids : List Nat) : PTree :=
  ids.foldl (fun acc i => setSchedAll i (t0 + sol (.startT i)) acc) root

/-- `optimize_schedule` from `src/optimizer.py`, with the CP-SAT solver
abstracted as its outcome: a status plus a value assignment for the
variables.  Only `status == cp_model.OPTIMAL` leads to the write-back; every
other status raises `ValueError("No optimal schedule found.")` and the graph
is returned to the caller untouched. -/
def optimizeSchedule (root : PTree) (now : Int) (status : CpStatus)
    (sol : CVar → Int) : Except String PTree :=
  match buildModel root now with
  | .error e => .error e
  | .ok (_, opt, t0) =>
    if status = .OPTIMAL then
      .ok (writeBack root t0 sol ((protocolNodesOf opt).map ONode.idOf))
    else .error "No optimal schedule found."

/-- `ATask` from `src/awaitlist.py`: a scheduled token.  The `uuid.UUID`
identifier is modelled as a natural number; the executor and the await-list
always create tasks with a fresh identifier (`uuid.uuid4()`), which the model
realises with a monotone counter, so the identifier also records insertion
order. -/
structure ATask where
  execTime : Int
  tid : Nat
  content : String
deriving DecidableEq, Repr

/-- Insert a task after every task whose `execution_time` is not larger.  On a
list sorted by `execution_time` this is exactly where
`tasks.append(task); tasks.sort(key=lambda x: x.execution_time)` (a stable
sort of the appended list) places the new task. -/
def insertTask (t : ATask) : List ATask → List ATask
  | [] => [t]
  | a :: as => if a.execTime ≤ t.execTime then a :: insertTask t as else t :: a :: as

/-- Stable sort by `execution_time` (`tasks.sort(key=lambda x:
x.execution_time)` — Python's `list.sort` is stable): insert the elements
left to right, each after all equal keys already placed. -/
def sortTasks (l : List ATask) : List ATask :=
  l.foldl (fun acc a => insertTask a acc) []

/-- `AwaitList.add_task`'s effect on the task list, with a task built from a
fresh identifier: append, then stable-sort by execution time.  (The duplicate
identifier check cannot fire for a fresh identifier.) -/
def addTaskList (l : List ATask) (t : ATask) : List ATask :=
  sortTasks (l ++ [t])

/-- The task-cancellation loop of `Executor.optimize`:

    tasks = self.await_list.get_tasks()
    for task in tasks:
        await self.await_list.cancel_task(task.id)

`get_tasks` returns the await-list's own mutable list, and `cancel_task`
deletes the found element from that same list, so the `for` loop iterates by
index over a list that shrinks under it: index 0 removes element 0, index 1
then removes the element that started at position 2, and so on.  The
surviving tasks are therefore exactly every second element (identifiers are
unique, so `cancel_task` always removes the currently indexed element). -/
def cancelLoop : List ATask → List ATask
  | [] => []
  | [_] => []
  | _ :: b :: rest => b :: cancelLoop rest

/-- A `Start`-rooted graph held by the executor: the root's identifier and
its first-level children subtrees. -/
structure ExecGraph where
  startId : Nat
  children : List PTree
deriving DecidableEq

/-- The root identifier of a subtree. -/
def rootIdOf : PTree → Nat
  | .start i _ => i
  | .protocol i _ _ _ _ _ _ => i
  | .delay i _ _ _ _ => i

/-- Executor state: the submitted graphs, the `pre_node` pointer of every
first-level child (child root identifier ↦ current parent identifier — the
only parent pointers the merge/reset dance of `Executor.optimize` touches),
the await-list's pending tasks, and the snapshots written by
`json_storage.save`. -/
structure ExecState where
  graphs : List ExecGraph
  childPre : List (Nat × Nat)
  tasks : List ATask
  saved : List (List ExecGraph)
deriving DecidableEq

/-- The `pre_node` pointers after `marged_protocol > start.post_node` ran for
every submitted graph: every first-level child points at the synthetic merged
root. -/
def mergedPre (graphs : List ExecGraph) (mid : Nat) : List (Nat × Nat) :=
  graphs.flatMap fun g => g.children.map fun c => (rootIdOf c, mid)

/-- The `pre_node` pointers after the reset loop of `Executor.optimize`:
every first-level child points at its own graph's `Start`. -/
def ownPre (graphs : List ExecGraph) : List (Nat × Nat) :=
  graphs.flatMap fun g => g.children.map fun c => (rootIdOf c, g.startId)

mutual

/-- Modelled from the spec: the observable effect of a successful
`Optimizer.optimize_schedule` call (the `Optimizer` class imported by
`src/executor.py` is not under `src/`; per the spec it writes
`scheduled_time` into `Protocol` nodes by identifier on success and raises
without writing on failure).  The assignment `σ` gives the new scheduled
instant per identifier; identifiers it does not cover keep their old value. -/
def applySched (σ : Nat → Option Int) : PTree → PTree
  | .start j post => .start j (applySchedList σ post)
  | .protocol j nm d sc st fi post =>
    (match σ j with
     | some t => .protocol j nm d (some t) st fi (applySchedList σ post)
     | none => .protocol j nm d sc st fi (applySchedList σ post))
  | .delay j d f o post => .delay j d f o (applySchedList σ post)

def applySchedList (σ : Nat → Option Int) : List PTree → List PTree
  | [] => []
  | c :: cs => applySched σ c :: applySchedList σ cs

end

/-- Whether a node is exactly a `protocol.Protocol`
(`type(p) is Protocol`). -/
def PTree.isProtP : PTree → Bool
  | .protocol _ _ _ _ _ _ _ => true
  | _ => false

/-- `scheduled_time` of a node when it is a `Protocol`. -/
def schedOf : PTree → Option Int
  | .protocol _ _ _ sc _ _ _ => sc
  | _ => none

/-- The identifier of a protocol-graph node. -/
def PTree.pid : PTree → Nat := rootIdOf

/-- The comparison `x.scheduled_time or datetime.max` used as the `min` key
in `Executor.optimize`: an absent `scheduled_time` sorts after every present
one. -/
def ltSched : Option Int → Option Int → Bool
  | some x, some y => decide (x < y)
  | some _, none => true
  | none, _ => false

/-- Python's `min(iterable, key=...)`: the first element attaining the
minimal key (later elements replace the current one only when strictly
smaller). -/
def minFirst (p : PTree) (ps : List PTree) : PTree :=
  ps.foldl (fun cur c => if ltSched (schedOf c) (schedOf cur) then c else cur) p

/-- All `Protocol` nodes of the merged flatten
(`marged_protocol.flatten()` is the merged `Start` followed by the pre-order
flattens of every submitted graph's first-level children; the `Start` node
itself is dropped by the `type(p) is Protocol` filter). -/
def allProtocols (graphs : List ExecGraph) : List PTree :=
  (graphs.flatMap fun g => PTree.flatList g.children).filter PTree.isProtP

/-- The graphs after a successful optimizer run wrote its schedule
assignment into the protocol nodes. -/
def schedGraphs (σ : Nat → Option Int) (graphs : List ExecGraph) : List ExecGraph :=
  graphs.map fun g => { g with children := applySchedList σ g.children }

/-- The unstarted protocols
(`[p for p in all_protocol if p.started_time is None]`). -/
def unstartedOf (graphs : List ExecGraph) : List PTree :=
  (allProtocols graphs).filter fun p => (startedOf p).isNone

/-- `Executor.optimize` from `src/executor.py`, with the optimizer call
abstracted as its outcome `opt` and the fresh identifiers of the synthetic
merged root (`mid`) and of a newly enqueued task (`ntid`) as parameters.

The steps mirror the source: (1) build the synthetic merged `Start`, which
repoints every first-level child's `pre_node` at it; (2) run the optimizer —
when it raises, the exception propagates immediately, so the reset loop never
runs and the child `pre_node`s stay on the merged root; (3) on success,
restore the child `pre_node`s; (4) run the cancellation loop over the pending
tasks; (5) select the unstarted `Protocol` with the smallest
`scheduled_time` (absent sorts last, first-minimal wins); when no unstarted
`Protocol` exists, return — without saving; (6) when the selected node has no
`scheduled_time`, raise; (7) otherwise enqueue the single token
`(execution_time = scheduled_time, content = str(node.id))` and save the
protocols. -/
def executorOptimize (st : ExecState) (mid ntid : Nat)
    (opt : Except String (Nat → Option Int)) : ExecState × Except String Unit :=
  let preM := mergedPre st.graphs mid
  match opt with
  | .error e => ({ st with childPre := preM }, .error e)
  | .ok σ =>
    let graphs2 := schedGraphs σ st.graphs
    let pre2 := ownPre graphs2
    let tasks2 := cancelLoop st.tasks
    match unstartedOf graphs2 with
    | [] => ({ graphs := graphs2, childPre := pre2, tasks := tasks2, saved := st.saved }, .ok ())
    | p :: ps =>
      let nxt := minFirst p ps
      match schedOf nxt with
      | none =>
        ({ graphs := graphs2, childPre := pre2, tasks := tasks2, saved := st.saved },
         .error "Next protocol has no scheduled time")
      | some t =>
        let tasks3 := addTaskList tasks2 ⟨t, ntid, toString nxt.pid⟩
        ({ graphs := graphs2, childPre := pre2, tasks := tasks3,
           saved := st.saved ++ [graphs2] }, .ok ())

/-- A step of the await-list environment: a producer adds or cancels a task,
wall-clock time advances, or the single consumer (`wait_for_next_task`)
attempts to pop the head of the queue. -/
inductive AStep where
  | add (execTime : Int) (content : String)
  | cancel (tid : Nat)
  | advance (d : Nat)
  | consume
deriving DecidableEq, Repr

/-- The await-list state: current wall-clock instant, the fresh-identifier
counter, the pending tasks (sorted by `add_task`), and the tokens yielded so
far by `wait_for_next_task`, in order. -/
structure AState where
  now : Int
  nextId : Nat
  pending : List ATask
  yielded : List ATask
deriving DecidableEq, Repr

/-- One step of the await-list system, from `src/awaitlist.py`:
`add_task` appends the new task and stable-sorts by execution time (fresh
identifier, so the duplicate check cannot fire); `cancel_task` deletes the
first task with the given identifier, if any; `advance` lets wall-clock time
pass; `consume` mirrors the generator body of `wait_for_next_task`, which
pops and yields `self.tasks[0]` exactly when `next_task.execution_time <=
datetime.now()` and otherwise sleeps. -/
def stepA (st : AState) : AStep → AState
  | .add e c =>
    { st with
      pending := addTaskList st.pending ⟨e, st.nextId, c⟩
      nextId := st.nextId + 1 }
  | .cancel i => { st with pending := st.pending.eraseP (fun t => t.tid == i) }
  | .advance d => { st with now := st.now + d }
  | .consume =>
    match st.pending with
    | [] => st
    | t :: rest =>
      if t.execTime ≤ st.now then
        { st with pending := rest, yielded := st.yielded ++ [t] }
      else st

/-- Run a list of steps from a state. -/
def runA (st : AState) (steps : List AStep) : AState :=
  steps.foldl stepA st

/-- The empty await-list at instant `0`. -/
def initA : AState := ⟨0, 0, [], []⟩

/-- A trace is well-timed when every task is added at or after the instant of
its insertion (no task is scheduled in the past). -/
def wellTimedA (now : Int) : List AStep → Bool
  | [] => true
  | .add e _ :: rest => decide (now ≤ e) && wellTimedA now rest
  | .advance d :: rest => wellTimedA (now + d) rest
  | .cancel _ :: rest => wellTimedA now rest
  | .consume :: rest => wellTimedA now rest

/-- Strict lexicographic order on tasks: earlier execution time first, and
among equal execution times earlier insertion (smaller identifier) first. -/
def lexLT (a b : ATask) : Prop :=
  a.execTime < b.execTime ∨ (a.execTime = b.execTime ∧ a.tid < b.tid)

instance : DecidablePred fun p : ATask × ATask => lexLT p.1 p.2 := by
  intro p
  unfold lexLT
  infer_instance

instance (a b : ATask) : Decidable (lexLT a b) := by
  unfold lexLT
  infer_instance

/-- A value stored under a time key of the dictionary form produced by
`to_dict` in `src/protocol.py`: either a raw `datetime` object (what
`StartedProtocol.to_dict` and `ScheduleStart.to_dict` store) or a plain
number (what `datetime.fromtimestamp` in `from_dict` expects). -/
inductive TVal where
  | dtObj (t : Int)
  | num (q : Int)
deriving DecidableEq, Repr

/-- The dictionary form of a node (`src/protocol.py`): the keys read by any
of the `from_dict` decoders, each `Option` because `data.get(...)` returns
`None` for a missing key.  `duration` and `offset` are plain numbers
(`total_seconds()`), while the three time keys hold `TVal`s because
`to_dict` stores raw `datetime` objects there. -/
inductive NDict where
  | mk (node_type : Option String) (post_node : Option (List NDict))
      (name : Option String) (duration : Option Int)
      (from_type : Option String) (offset : Option Int)
      (scheduled_time start_time end_time : Option TVal)

mutual

/-- Decidable equality for `NDict`. -/
def NDict.deq : (a b : NDict) → Decidable (a = b)
  | .mk nt pn nm du ft off sc st en, .mk nt' pn' nm' du' ft' off' sc' st' en' =>
    match decEq nt nt', NDict.deqList pn pn', decEq nm nm', decEq du du',
        decEq ft ft', decEq off off', decEq sc sc', decEq st st', decEq en en' with
    | isTrue h1, isTrue h2, isTrue h3, isTrue h4, isTrue h5, isTrue h6, isTrue h7,
        isTrue h8, isTrue h9 =>
      isTrue (by rw [h1, h2, h3, h4, h5, h6, h7, h8, h9])
    | isFalse h1, _, _, _, _, _, _, _, _ => isFalse (by intro hh; cases hh; exact h1 rfl)
    | _, isFalse h2, _, _, _, _, _, _, _ => isFalse (by intro hh; cases hh; exact h2 rfl)
    | _, _, isFalse h3, _, _, _, _, _, _ => isFalse (by intro hh; cases hh; exact h3 rfl)
    | _, _, _, isFalse h4, _, _, _, _, _ => isFalse (by intro hh; cases hh; exact h4 rfl)
    | _, _, _, _, isFalse h5, _, _, _, _ => isFalse (by intro hh; cases hh; exact h5 rfl)
    | _, _, _, _, _, isFalse h6, _, _, _ => isFalse (by intro hh; cases hh; exact h6 rfl)
    | _, _, _, _, _, _, isFalse h7, _, _ => isFalse (by intro hh; cases hh; exact h7 rfl)
    | _, _, _, _, _, _, _, isFalse h8, _ => isFalse (by intro hh; cases hh; exact h8 rfl)
    | _, _, _, _, _, _, _, _, isFalse h9 => isFalse (by intro hh; cases hh; exact h9 rfl)

def NDict.deqList : (a b : Option (List NDict)) → Decidable (a = b)
  | none, none => isTrue rfl
  | none, some _ => isFalse (by intro h; cases h)
  | some _, none => isFalse (by intro h; cases h)
  | some [], some [] => isTrue rfl
  | some [], some (_ :: _) => isFalse (by intro h; cases h)
  | some (_ :: _), some [] => isFalse (by intro h; cases h)
  | some (c :: cs), some (d :: ds) =>
    match NDict.deq c d, NDict.deqList (some cs) (some ds) with
    | isTrue h1, isTrue h2 => isTrue (by injection h2 with h2; rw [h1, h2])
    | isFalse h1, _ => isFalse (by intro hh; injection hh with hh; injection hh; contradiction)
    | _, isFalse h2 => isFalse (by intro hh; injection hh with hh; injection hh; subst_vars; exact h2 rfl)

end

instance : DecidableEq NDict := NDict.deq

/-- The node variants of `src/protocol.py` as one mixed tree type: `Start`,
`ScheduleStart`, `Delay`, `Protocol` and `StartedProtocol`
(`plan2schedule` can produce trees mixing plan and schedule variants, so a
single type holds all five). -/
inductive MNode where
  | start (post : List MNode)
  | scheduleStart (startTime : Option Int) (post : List MNode)
  | delay (duration : Int) (fromType : FromType) (offset : Int) (post : List MNode)
  | protocol (name : String) (duration : Int) (post : List MNode)
  | startedProtocol (name : String) (duration : Int)
      (scheduledTime startTime endTime : Option Int) (post : List MNode)

mutual

/-- Decidable equality for `MNode`. -/
def MNode.deq : (a b : MNode) → Decidable (a = b)
  | .start p, .start p' =>
    match MNode.deqList p p' with
    | isTrue h1 => isTrue (by rw [h1])
    | isFalse h1 => isFalse (by intro hh; cases hh; exact h1 rfl)
  | .scheduleStart st p, .scheduleStart st' p' =>
    match decEq st st', MNode.deqList p p' with
    | isTrue h1, isTrue h2 => isTrue (by rw [h1, h2])
    | isFalse h1, _ => isFalse (by intro hh; cases hh; exact h1 rfl)
    | _, isFalse h2 => isFalse (by intro hh; cases hh; exact h2 rfl)
  | .delay d f o p, .delay d' f' o' p' =>
    match decEq d d', decEq f f', decEq o o', MNode.deqList p p' with
    | isTrue h1, isTrue h2, isTrue h3, isTrue h4 => isTrue (by rw [h1, h2, h3, h4])
    | isFalse h1, _, _, _ => isFalse (by intro hh; cases hh; exact h1 rfl)
    | _, isFalse h2, _, _ => isFalse (by intro hh; cases hh; exact h2 rfl)
    | _, _, isFalse h3, _ => isFalse (by intro hh; cases hh; exact h3 rfl)
    | _, _, _, isFalse h4 => isFalse (by intro hh; cases hh; exact h4 rfl)
  | .protocol nm d p, .protocol nm' d' p' =>
    match decEq nm nm', decEq d d', MNode.deqList p p' with
    | isTrue h1, isTrue h2, isTrue h3 => isTrue (by rw [h1, h2, h3])
    | isFalse h1, _, _ => isFalse (by intro hh; cases hh; exact h1 rfl)
    | _, isFalse h2, _ => isFalse (by intro hh; cases hh; exact h2 rfl)
    | _, _, isFalse h3 => isFalse (by intro hh; cases hh; exact h3 rfl)
  | .startedProtocol nm d sc st en p, .startedProtocol nm' d' sc' st' en' p' =>
    match decEq nm nm', decEq d d', decEq sc sc', decEq st st', decEq en en',
        MNode.deqList p p' with
    | isTrue h1, isTrue h2, isTrue h3, isTrue h4, isTrue h5, isTrue h6 =>
      isTrue (by rw [h1, h2, h3, h4, h5, h6])
    | isFalse h1, _, _, _, _, _ => isFalse (by intro hh; cases hh; exact h1 rfl)
    | _, isFalse h2, _, _, _, _ => isFalse (by intro hh; cases hh; exact h2 rfl)
    | _, _, isFalse h3, _, _, _ => isFalse (by intro hh; cases hh; exact h3 rfl)
    | _, _, _, isFalse h4, _, _ => isFalse (by intro hh; cases hh; exact h4 rfl)
    | _, _, _, _, isFalse h5, _ => isFalse (by intro hh; cases hh; exact h5 rfl)
    | _, _, _, _, _, isFalse h6 => isFalse (by intro hh; cases hh; exact h6 rfl)
  | .start _, .scheduleStart _ _ => isFalse (by intro h; cases h)
  | .start _, .delay _ _ _ _ => isFalse (by intro h; cases h)
  | .start _, .protocol _ _ _ => isFalse (by intro h; cases h)
  | .start _, .startedProtocol _ _ _ _ _ _ => isFalse (by intro h; cases h)
  | .scheduleStart _ _, .start _ => isFalse (by intro h; cases h)
  | .scheduleStart _ _, .delay _ _ _ _ => isFalse (by intro h; cases h)
  | .scheduleStart _ _, .protocol _ _ _ => isFalse (by intro h; cases h)
  | .scheduleStart _ _, .startedProtocol _ _ _ _ _ _ => isFalse (by intro h; cases h)
  | .delay _ _ _ _, .start _ => isFalse (by intro h; cases h)
  | .delay _ _ _ _, .scheduleStart _ _ => isFalse (by intro h; cases h)
  | .delay _ _ _ _, .protocol _ _ _ => isFalse (by intro h; cases h)
  | .delay _ _ _ _, .startedProtocol _ _ _ _ _ _ => isFalse (by intro h; cases h)
  | .protocol _ _ _, .start _ => isFalse (by intro h; cases h)
  | .protocol _ _ _, .scheduleStart _ _ => isFalse (by intro h; cases h)
  | .protocol _ _ _, .delay _ _ _ _ => isFalse (by intro h; cases h)
  | .protocol _ _ _, .startedProtocol _ _ _ _ _ _ => isFalse (by intro h; cases h)
  | .startedProtocol _ _ _ _ _ _, .start _ => isFalse (by intro h; cases h)
  | .startedProtocol _ _ _ _ _ _, .scheduleStart _ _ => isFalse (by intro h; cases h)
  | .startedProtocol _ _ _ _ _ _, .delay _ _ _ _ => isFalse (by intro h; cases h)
  | .startedProtocol _ _ _ _ _ _, .protocol _ _ _ => isFalse (by intro h; cases h)

def MNode.deqList : (a b : List MNode) → Decidable (a = b)
  | [], [] => isTrue rfl
  | [], _ :: _ => isFalse (by intro h; cases h)
  | _ :: _, [] => isFalse (by intro h; cases h)
  | c :: cs, d :: ds =>
    match MNode.deq c d, MNode.deqList cs ds with
    | isTrue h1, isTrue h2 => isTrue (by rw [h1, h2])
    | isFalse h1, _ => isFalse (by intro hh; cases hh; exact h1 rfl)
    | _, isFalse h2 => isFalse (by intro hh; cases hh; exact h2 rfl)

end

instance : DecidableEq MNode := MNode.deq

/-- `FromType.name` (`from_type.name` in `Delay.to_dict`). -/
def ftName : FromType → String
  | .START => "START"
  | .FINISH => "FINISH"

/-- `FromType[name]` (`Delay.from_dict`); an unknown name raises
`KeyError`. -/
def ftOfName (s : String) : Except String FromType :=
  if s = "START" then .ok .START
  else if s = "FINISH" then .ok .FINISH
  else .error "KeyError: not a FromType name"

mutual

/-- `to_dict` from `src/protocol.py`, per variant.  `Start.to_dict` emits
`node_type` and `post_node` only; `ScheduleStart.to_dict` adds the raw
`start_time` datetime; `Delay.to_dict` adds `duration` and `offset` in
seconds plus `from_type` by name; `Protocol.to_dict` adds `name` and
`duration`; `StartedProtocol.to_dict` additionally stores the three time
fields as raw `datetime` objects (not timestamps). -/
def toDict : MNode → NDict
  | .start post =>
    .mk (some "plan_start") (some (toDictList post)) none none none none none none none
  | .scheduleStart st post =>
    .mk (some "schedule_start") (some (toDictList post)) none none none none none
      (st.map .dtObj) none
  | .delay d ft off post =>
    .mk (some "delay") (some (toDictList post)) none (some d) (some (ftName ft))
      (some off) none none none
  | .protocol nm d post =>
    .mk (some "protocol") (some (toDictList post)) (some nm) (some d) none none
      none none none
  | .startedProtocol nm d sc st en post =>
    .mk (some "started_protocol") (some (toDictList post)) (some nm) (some d) none
      none (sc.map .dtObj) (st.map .dtObj) (en.map .dtObj)

def toDictList : List MNode → List NDict
  | [] => []
  | c :: cs => toDict c :: toDictList cs

end

/-- `datetime.fromtimestamp(x)`: succeeds on a number, raises `TypeError`
when handed a `datetime` object (which is what `to_dict` stored). -/
def fromTimestampV : TVal → Except String Int
  | .num q => .ok q
  | .dtObj _ => .error "TypeError: fromtimestamp expects a number"

/-- `Start.from_dict`: returns a fresh `Start` ignoring the data. -/
def startFromDict (_d : NDict) : Except String MNode :=
  .ok (.start [])

/-- `ScheduleStart.from_dict`: requires `node_type == "schedule_start"`
(a missing or different value raises), then converts `start_time` with
`datetime.fromtimestamp` when present. -/
def scheduleStartFromDict : NDict → Except String MNode
  | .mk nt _ _ _ _ _ _ st _ =>
    if nt = some "schedule_start" then
      match st with
      | none => .ok (.scheduleStart none [])
      | some tv =>
        match fromTimestampV tv with
        | .error e => .error e
        | .ok t => .ok (.scheduleStart (some t) [])
    else .error "Invalid node_type for ScheduleStart node"

/-- `Delay.from_dict`: requires `node_type == "delay"`, then `duration`,
`offset` and `from_type` must be present (checked in that order), and the
`from_type` name must be a `FromType` member. -/
def delayFromDict : NDict → Except String MNode
  | .mk nt _ _ du ft off _ _ _ =>
    if nt = some "delay" then
      match du with
      | none => .error "Missing duration for Delay node"
      | some d =>
        match off with
        | none => .error "Missing offset for Delay node"
        | some o =>
          match ft with
          | none => .error "Missing from_type for Delay node"
          | some fs =>
            match ftOfName fs with
            | .error e => .error e
            | .ok f => .ok (.delay d f o [])
    else .error "Invalid node_type for Delay node"

/-- `Protocol.from_dict`: requires `node_type == "protocol"`, then `name`
and `duration` must be present. -/
def protocolFromDict : NDict → Except String MNode
  | .mk nt _ nm du _ _ _ _ _ =>
    if nt = some "protocol" then
      match nm with
      | none => .error "Missing name for Protocol node"
      | some n =>
        match du with
        | none => .error "Missing duration for Protocol node"
        | some d => .ok (.protocol n d [])
    else .error "Invalid node_type for Protocol node"

/-- `StartedProtocol.from_dict`: requires `node_type == "started_protocol"`,
`name` and `duration` present, then converts the three time values with
`datetime.fromtimestamp` when present (in the order scheduled, start, end). -/
def startedProtocolFromDict : NDict → Except String MNode
  | .mk nt _ nm du _ _ sc st en =>
    if nt = some "started_protocol" then
      match nm with
      | none => .error "Missing name for StartedProtocol node"
      | some n =>
        match du with
        | none => .error "Missing duration for StartedProtocol node"
        | some d =>
          match (match sc with
                 | none => Except.ok (none : Option Int)
                 | some tv => (fromTimestampV tv).map some) with
          | .error e => .error e
          | .ok scv =>
            match (match st with
                   | none => Except.ok (none : Option Int)
                   | some tv => (fromTimestampV tv).map some) with
            | .error e => .error e
            | .ok stv =>
              match (match en with
                     | none => Except.ok (none : Option Int)
                     | some tv => (fromTimestampV tv).map some) with
              | .error e => .error e
              | .ok env => .ok (.startedProtocol n d scv stv env [])
    else .error "Invalid node_type for StartedProtocol node"

/-- Whether the node is exactly a `Protocol` (`type(x) is Protocol`). -/
def MNode.isProtM : MNode → Bool
  | .protocol _ _ _ => true
  | _ => false

/-- Whether the node is exactly a `Delay`. -/
def MNode.isDelayM : MNode → Bool
  | .delay _ _ _ _ => true
  | _ => false

/-- Whether the node is exactly a `StartedProtocol`. -/
def MNode.isStartedM : MNode → Bool
  | .startedProtocol _ _ _ _ _ _ => true
  | _ => false

/-- Replace the children list of a node (the net effect of the
`current_node.add(post_node)` attach loop on a freshly decoded node, whose
children list starts empty). -/
def MNode.withPost : MNode → List MNode → MNode
  | .start _, posts => .start posts
  | .scheduleStart st _, posts => .scheduleStart st posts
  | .delay d f o _, posts => .delay d f o posts
  | .protocol nm du _, posts => .protocol nm du posts
  | .startedProtocol nm du sc st en _, posts => .startedProtocol nm du sc st en posts

/-- The strings that are valid `NodeType` values
(`NodeType(node_type)` raises `ValueError` for anything else). -/
def validNodeType (s : String) : Bool :=
  s = "plan_start" || s = "delay" || s = "protocol" || s = "schedule_start" ||
    s = "started_protocol"

mutual

/-- `plan_from_dict` from `src/protocol.py`: read and validate `node_type`,
require `post_node`, decode all children first, then dispatch on the node
type — `plan_start` accepts `Protocol`/`Delay` children, `delay` accepts only
`Protocol` children, `protocol` accepts `Protocol`/`Delay` children; the two
schedule node types fall into the final `Unknown node type` branch. -/
def planFromDict : NDict → Except String MNode
  | .mk nt pn nm du ft off sc st en =>
    match nt with
    | none => .error "Missing node_type"
    | some nts =>
      if validNodeType nts then
        match pn with
        | none => .error "Missing post_node"
        | some children =>
          match planFromDictList children with
          | .error e => .error e
          | .ok posts =>
            if nts = "plan_start" then
              match startFromDict (.mk nt pn nm du ft off sc st en) with
              | .error e => .error e
              | .ok cur =>
                if posts.all fun c => c.isProtM || c.isDelayM then
                  .ok (cur.withPost posts)
                else .error "Invalid post_node type"
            else if nts = "delay" then
              match delayFromDict (.mk nt pn nm du ft off sc st en) with
              | .error e => .error e
              | .ok cur =>
                if posts.all MNode.isProtM then .ok (cur.withPost posts)
                else .error "Invalid post_node type"
            else if nts = "protocol" then
              match protocolFromDict (.mk nt pn nm du ft off sc st en) with
              | .error e => .error e
              | .ok cur =>
                if posts.all fun c => c.isProtM || c.isDelayM then
                  .ok (cur.withPost posts)
                else .error "Invalid post_node type"
            else .error ("Unknown node type: " ++ nts)
      else .error (nts ++ " is not a valid NodeType")

def planFromDictList : List NDict → Except String (List MNode)
  | [] => .ok []
  | c :: cs =>
    match planFromDict c with
    | .error e => .error e
    | .ok r =>
      match planFromDictList cs with
      | .error e => .error e
      | .ok rs => .ok (r :: rs)

end

mutual

/-- `schedule_from_dict` from `src/protocol.py`: like `plan_from_dict` but
dispatching on `schedule_start` (accepts `StartedProtocol`/`Delay`
children), `delay` (accepts only children of exact type `Protocol` — note:
not `StartedProtocol`) and `started_protocol` (accepts
`StartedProtocol`/`Delay` children). -/
def scheduleFromDict : NDict → Except String MNode
  | .mk nt pn nm du ft off sc st en =>
    match nt with
    | none => .error "Missing node_type"
    | some nts =>
      if validNodeType nts then
        match pn with
        | none => .error "Missing post_node"
        | some children =>
          match scheduleFromDictList children with
          | .error e => .error e
          | .ok posts =>
            if nts = "schedule_start" then
              match scheduleStartFromDict (.mk nt pn nm du ft off sc st en) with
              | .error e => .error e
              | .ok cur =>
                if posts.all fun c => c.isStartedM || c.isDelayM then
                  .ok (cur.withPost posts)
                else .error "Invalid post_node type"
            else if nts = "delay" then
              match delayFromDict (.mk nt pn nm du ft off sc st en) with
              | .error e => .error e
              | .ok cur =>
                if posts.all MNode.isProtM then .ok (cur.withPost posts)
                else .error "Invalid post_node type"
            else if nts = "started_protocol" then
              match startedProtocolFromDict (.mk nt pn nm du ft off sc st en) with
              | .error e => .error e
              | .ok cur =>
                if posts.all fun c => c.isStartedM || c.isDelayM then
                  .ok (cur.withPost posts)
                else .error "Invalid post_node type"
            else .error ("Unknown node type: " ++ nts)
      else .error (nts ++ " is not a valid NodeType")

def scheduleFromDictList : List NDict → Except String (List MNode)
  | [] => .ok []
  | c :: cs =>
    match scheduleFromDict c with
    | .error e => .error e
    | .ok r =>
      match scheduleFromDictList cs with
      | .error e => .error e
      | .ok rs => .ok (r :: rs)

end

mutual

/-- `plan2schedule` from `src/protocol.py`.  The `Start` and `Protocol`
branches build fresh `ScheduleStart` / `StartedProtocol.from_protocol` nodes
and attach the converted children (after the type checks).  The `Delay`
branch, however, sets `current_node = node` — the original delay object,
whose `post_node` list still holds the original children — and then appends
the converted children to it, so the resulting delay carries its original
children (as mutated in place by the recursion, see `mutView`) followed by
the converted copies.  A node of any other variant leaves `current_node`
unbound (`UnboundLocalError`). -/
def plan2schedule : MNode → Except String MNode
  | .start post =>
    match p2sList post with
    | .error e => .error e
    | .ok posts =>
      if posts.all fun c => c.isStartedM || c.isDelayM then
        .ok (.scheduleStart none posts)
      else .error "Invalid post_node type"
  | .protocol nm d post =>
    match p2sList post with
    | .error e => .error e
    | .ok posts =>
      if posts.all fun c => c.isStartedM || c.isDelayM then
        .ok (.startedProtocol nm d none none none posts)
      else .error "Invalid post_node type"
  | .delay d ft off post =>
    match p2sList post with
    | .error e => .error e
    | .ok posts =>
      if posts.all fun c => c.isStartedM || c.isDelayM then
        match mutViewList post with
        | .error e => .error e
        | .ok kept => .ok (.delay d ft off (kept ++ posts))
      else .error "Invalid post_node type"
  | .scheduleStart _ _ => .error "UnboundLocalError: current_node"
  | .startedProtocol _ _ _ _ _ _ => .error "UnboundLocalError: current_node"

def p2sList : List MNode → Except String (List MNode)
  | [] => .ok []
  | c :: cs =>
    match plan2schedule c with
    | .error e => .error e
    | .ok r =>
      match p2sList cs with
      | .error e => .error e
      | .ok rs => .ok (r :: rs)

/-- The value of an original node object after `plan2schedule` has finished:
every delay that was converted had the converted copies of its children
appended to its own (recursively mutated) children list, while `Start` and
`Protocol` objects keep their structure with mutated descendants.  Schedule
variants are never converted (the conversion raises first), so they are
retained unchanged on the — then failing — paths. -/
def mutView : MNode → Except String MNode
  | .start post =>
    match mutViewList post with
    | .error e => .error e
    | .ok kept => .ok (.start kept)
  | .protocol nm d post =>
    match mutViewList post with
    | .error e => .error e
    | .ok kept => .ok (.protocol nm d kept)
  | .delay d ft off post =>
    match p2sList post with
    | .error e => .error e
    | .ok posts =>
      match mutViewList post with
      | .error e => .error e
      | .ok kept => .ok (.delay d ft off (kept ++ posts))
  | .scheduleStart st post => .ok (.scheduleStart st post)
  | .startedProtocol nm d sc st en post => .ok (.startedProtocol nm d sc st en post)

def mutViewList : List MNode → Except String (List MNode)
  | [] => .ok []
  | c :: cs =>
    match mutView c with
    | .error e => .error e
    | .ok r =>
      match mutViewList cs with
      | .error e => .error e
      | .ok rs => .ok (r :: rs)

end

mutual

/-- The conversion C10 claims `plan2schedule` performs: a pure structural
map in which every output node's children correspond one-to-one to the input
node's children (`Start ↦ ScheduleStart`, `Protocol ↦ StartedProtocol` with
unset time fields, `Delay` kept with its fields unchanged). -/
def claimedP2s : MNode → MNode
  | .start post => .scheduleStart none (claimedP2sList post)
  | .protocol nm d post => .startedProtocol nm d none none none (claimedP2sList post)
  | .delay d f o post => .delay d f o (claimedP2sList post)
  | .scheduleStart st post => .scheduleStart st (claimedP2sList post)
  | .startedProtocol nm d sc st en post =>
    .startedProtocol nm d sc st en (claimedP2sList post)

def claimedP2sList : List MNode → List MNode
  | [] => []
  | c :: cs => claimedP2s c :: claimedP2sList cs

end

mutual

/-- The conversion `plan2schedule` actually performs on plan-typed input, as
a pure function: like `claimedP2s` except that each `Delay`'s converted
children are appended after its retained (recursively mutated) original
children, doubling the delay's child count. -/
def actualP2s : MNode → MNode
  | .start post => .scheduleStart none (actualP2sList post)
  | .protocol nm d post => .startedProtocol nm d none none none (actualP2sList post)
  | .delay d f o post => .delay d f o (actualMutList post ++ actualP2sList post)
  | .scheduleStart st post => .scheduleStart st post
  | .startedProtocol nm d sc st en post => .startedProtocol nm d sc st en post

def actualP2sList : List MNode → List MNode
  | [] => []
  | c :: cs => actualP2s c :: actualP2sList cs

/-- The pure counterpart of `mutView`. -/
def actualMut : MNode → MNode
  | .start post => .start (actualMutList post)
  | .protocol nm d post => .protocol nm d (actualMutList post)
  | .delay d f o post => .delay d f o (actualMutList post ++ actualP2sList post)
  | .scheduleStart st post => .scheduleStart st post
  | .startedProtocol nm d sc st en post => .startedProtocol nm d sc st en post

def actualMutList : List MNode → List MNode
  | [] => []
  | c :: cs => actualMut c :: actualMutList cs

end

mutual

/-- Whether a node is a valid plan-tree child: a `Protocol` or `Delay` whose
descendants are again plan-tree children (the successor types declared by
`src/protocol.py`). -/
def isPlanChild : MNode → Bool
  | .protocol _ _ post => isPlanChildList post
  | .delay _ _ _ post => isPlanChildList post
  | _ => false

def isPlanChildList : List MNode → Bool
  | [] => true
  | c :: cs => isPlanChild c && isPlanChildList cs

end

/-- A `Start`-rooted plan tree. -/
def isPlanRoot : MNode → Bool
  | .start post => isPlanChildList post
  | _ => false

/-- A node of the object heap used to model the mutable `Node` objects of
`src/protocol.py` for the attach operation: a `pre_node` pointer and the
`post_node` list, all by object identity (modelled as `Nat`). -/
structure HNode where
  pre : Option Nat
  post : List Nat
deriving DecidableEq, Repr

/-- The object heap: every identity maps to its node state. -/
def Heap : Type := Nat → HNode

/-- `Node.add` from `src/protocol.py` (also the per-element body of
`Node.__gt__`): `self.post_node.append(other)` followed by
`other.pre_node = self`.  There is no check of any kind before the append. -/
def addNode (h : Heap) (r c : Nat) : Heap :=
  let h1 : Heap := fun i => if i = r then ⟨(h r).pre, (h r).post ++ [c]⟩ else h i
  fun i => if i = c then ⟨some r, (h1 c).post⟩ else h1 i

/-- `Node.top`: follow `pre_node` links to the root (fuel-bounded, since the
unchecked `add` can create cycles). -/
def topOf (h : Heap) : Nat → Nat → Nat
  | 0, i => i
  | fuel + 1, i =>
    match (h i).pre with
    | none => i
    | some p => topOf h fuel p

/-- The identifiers in the subtree below a node (fuel-bounded pre-order,
mirroring `Node.flatten`). -/
def reachIds (h : Heap) : Nat → Nat → List Nat
  | 0, _ => []
  | fuel + 1, i => i :: (h i).post.flatMap (reachIds h fuel)

/-- Whether `c` is already in the rooted tree of `r` (the tree hanging from
`r.top`), which is the condition under which the spec's *attach* is required
to fail with `Cycle`. -/
def inRootedTree (h : Heap) (fuel r c : Nat) : Bool :=
  (reachIds h fuel (topOf h fuel r)).contains c

/-- The observable data of one `Protocol` node of the protocol graph. -/
structure PView where
  vid : Nat
  vname : String
  vduration : Int
  vsched : Option Int
  vstarted : Option Int
  vfinished : Option Int
deriving DecidableEq, Repr

mutual

/-- The `Protocol` nodes of a protocol graph in pre-order, as views. -/
def protViews : PTree → List PView
  | .start _ post => protViewsList post
  | .protocol i nm d sc st fi post => ⟨i, nm, d, sc, st, fi⟩ :: protViewsList post
  | .delay _ _ _ _ post => protViewsList post

def protViewsList : List PTree → List PView
  | [] => []
  | c :: cs => protViews c ++ protViewsList cs

end

/-- The observable data of one `Protocol` node of the optimizer tree. -/
structure OView where
  wid : Nat
  wname : String
  wduration : Int
  wstarted : Option Int
  wfinished : Option Int
deriving DecidableEq, Repr

mutual

/-- The `Protocol` nodes of an optimizer tree in pre-order, as views. -/
def oViews : ONode → List OView
  | .start _ post => oViewsList post
  | .protocol i nm d st fi post => ⟨i, nm, d, st, fi⟩ :: oViewsList post
  | .delay _ _ _ _ post => oViewsList post

def oViewsList : List ONode → List OView
  | [] => []
  | c :: cs => oViews c ++ oViewsList cs

end

/-- The view of a single optimizer node (junk for non-`Protocol` nodes,
which never occur where it is used). -/
def viewOfO : ONode → OView
  | .protocol i nm d st fi _ => ⟨i, nm, d, st, fi⟩
  | .start i _ => ⟨i, "", 0, none, none⟩
  | .delay i _ _ _ _ => ⟨i, "", 0, none, none⟩

/-- How `protocol_to_opt` transforms the view of a `Protocol` node: the
observed instants become offsets from the reference instant `t0`. -/
def viewToOpt (t0 : Int) (v : PView) : OView :=
  ⟨v.vid, v.vname, v.vduration, v.vstarted.map (· - t0), v.vfinished.map (· - t0)⟩

/-- The pair of constraints `set_loss` actually posts for a delay `did` with
`Protocol` parent `pid` and `Protocol` successor `cid`: both sides of
`loss == (C.start - P.finish) - (duration + offset)` — the anchor is the
parent's `finish_time` variable regardless of `from_type`. -/
def actualLossConstraints (pid cid did : Nat) (target : Int) : List Constr :=
  let e := LExpr.sub (.sub (.var (.startT cid)) (.var (.finishT pid))) (.const target)
  [.geC (.var (.lossV did)) e, .leC (.var (.lossV did)) e]

/-- The pair of constraints claim C1 says `set_loss` posts: the same shape
but with the anchor chosen by `from_type` — the parent's `start_time`
variable for `START` and its `finish_time` variable for `FINISH`. -/
def claimedLossConstraints (pid cid did : Nat) (ft : FromType) (target : Int) :
    List Constr :=
  let anchor : CVar :=
    match ft with
    | .START => .startT pid
    | .FINISH => .finishT pid
  let e := LExpr.sub (.sub (.var (.startT cid)) (.var anchor)) (.const target)
  [.geC (.var (.lossV did)) e, .leC (.var (.lossV did)) e]

/-- The per-`Protocol`-node constraints emitted by the `set_vars` /
makespan loop of `optimize_schedule` (used to characterise the folded model
construction). -/
def protEmit (n : ONode) : List Constr :=
  match n with
  | .protocol pid _ _ st fi _ =>
    (match st with
     | some s =>
       Constr.eqC (.var (.startT pid)) (.const s) ::
         (match fi with
          | some f => [Constr.eqC (.var (.finishT pid)) (.const f)]
          | none => [])
     | none => []) ++ [Constr.geC (.var .makespan) (.var (.finishT pid))]
  | _ => []

/-- The variable declarations emitted per `Protocol` node by `set_vars`. -/
def protVarsEmit (maxTime : Int) (n : ONode) : List (CVar × Int × Int) :=
  match n with
  | .protocol pid _ _ _ _ _ => [(.startT pid, 0, maxTime), (.finishT pid, 0, maxTime)]
  | _ => []

/-- The interval contributed per `Protocol` node: none exactly when both
observed times are fixed. -/
def protInterval (n : ONode) : Option Nat :=
  match n with
  | .protocol pid _ _ st fi _ =>
    match st with
    | some _ =>
      (match fi with
       | some _ => none
       | none => some pid)
    | none => some pid
  | _ => none

/-- The precedence constraints appended to the model for one `Protocol`
node: `finish_time <= start_time` per `Protocol` successor. -/
def orderChunk (n : ONode) : List Constr :=
  match n with
  | .protocol pid _ _ _ _ post =>
    post.flatMap fun c =>
      match c with
      | .protocol cid _ _ _ _ _ => [Constr.leC (.var (.finishT pid)) (.var (.startT cid))]
      | _ => []
  | _ => []

/-- The constraints appended to the model by one `set_loss` call. -/
def lossChunk (pre : Option ONode) (dn : ONode) : List Constr :=
  match dn with
  | .delay did ddur _ doff children =>
    (match pre with
     | some (.protocol pid _ _ _ _ _) =>
       children.flatMap fun c =>
         match c with
         | .protocol cid _ _ _ _ _ => actualLossConstraints pid cid did (ddur + doff)
         | _ => []
     | _ => [])
  | _ => []

/-- The variable declarations appended to the model by one `set_loss`
call. -/
def lossVarChunk (dn : ONode) : List (CVar × Int × Int) :=
  match dn with
  | .delay did ddur _ _ _ => [(.lossV did, 0, ddur * 2)]
  | _ => []

/-- The model value `buildModel` returns on success (the ok-branch of the
construction, written out so that its fields can be characterised); the
lemma relating it to `buildModel` is proved below. -/
def finalModel (root : PTree) (opt : ONode) : CPModel :=
  let maxTime := sumDurations (PTree.flat root)
  let protNodes := protocolNodesOf opt
  let delayNodes := delaysWithPre opt
  let m0 : CPModel := ⟨[], [], [], none⟩
  let m1 := addVar m0 .makespan 0 maxTime
  let (m2, ivs) := protNodes.foldl (protStep maxTime) (m1, [])
  let m3 : CPModel := { m2 with intervals := ivs }
  let m4 := protNodes.foldl orderStep m3
  let m5 := delayNodes.foldl (fun acc pn => setLoss acc pn.1 pn.2) m4
  let losses := delayNodes.filterMap fun pn =>
    match pn.2 with
    | .delay did _ _ _ _ => some did
    | _ => none
  let obj := LExpr.add (.var .makespan)
    (losses.foldl (fun e l => LExpr.add e (.var (.lossV l))) (.const 0))
  { m5 with objective := some obj }

/-- A two-node heap: node 0 is a root whose only child is node 1 (the state
after `A.add(B)` on fresh nodes `A = 0`, `B = 1`). -/
def heapAB : Heap := fun i =>
  if i = 0 then ⟨none, [1]⟩ else if i = 1 then ⟨some 0, []⟩ else ⟨none, []⟩

/-- An executor holding one submitted graph `Start(0) → Protocol(1)` with
every `pre_node` pointing where the reset loop leaves it. -/
def stateC3 : ExecState :=
  ⟨[⟨0, [.protocol 1 "P" 5 none none none []]⟩], [(1, 0)], [], []⟩

/-- An executor whose single protocol has already started and finished. -/
def stateC7 : ExecState :=
  ⟨[⟨0, [.protocol 1 "P" 5 (some 9) (some 5) (some 11) []]⟩], [(1, 0)], [], []⟩

/-- An executor whose single protocol is unstarted with a scheduled time. -/
def stateC7w : ExecState :=
  ⟨[⟨0, [.protocol 1 "P" 5 (some 9) none none []]⟩], [(1, 0)], [], []⟩

/-- An await-list trace that adds a task for instant 10, consumes it at
instant 10, then adds a task for the already-past instant 5 and consumes it
too. -/
def traceC8 : List AStep :=
  [.add 10 "a", .advance 10, .consume, .add 5 "b", .consume]

/-- A well-timed await-list trace. -/
def traceC8w : List AStep :=
  [.add 2 "b", .add 10 "a", .advance 5, .consume, .advance 6, .consume]

/-- A start-rooted graph with a single unstarted protocol. -/
def rootC2a : PTree := .start 0 [.protocol 1 "P" 5 none none none []]

/-- A start-rooted graph whose single protocol has already started and
finished. -/
def rootC2b : PTree := .start 0 [.protocol 1 "P" 5 none (some 100) (some 105) []]

/-- A start-rooted graph with one finished protocol and one started-only
protocol. -/
def rootC6 : PTree :=
  .start 0 [.protocol 1 "A" 5 none (some 100) (some 106)
    [.protocol 2 "B" 4 none (some 107) none []]]

/-- A start-rooted graph with a `START`-anchored delay between two
protocols. -/
def rootC1 : PTree :=
  .start 0 [.protocol 2 "P" 5 none none none
    [.delay 7 3 .START 0 [.protocol 3 "C" 2 none none none []]]]

/-- A single protocol whose `started_time` is exactly the epoch. -/
def nodesC9 : List PTree := [.protocol 1 "P" 5 none (some 0) none []]

/-- A single protocol with a nonzero `started_time`. -/
def nodesC9w : List PTree := [.protocol 1 "P" 5 none (some 3) none []]

/-- A plan tree whose delay has one protocol successor. -/
def planC10 : MNode := .start [.delay 5 .START 0 [.protocol "C" 2 []]]

/-- A schedule tree whose started protocol has its `start_time` set. -/
def schedC5a : MNode :=
  .scheduleStart none [.startedProtocol "P1" 600 none (some 1000) none []]

/-- A schedule tree with a delay above a started protocol. -/
def schedC5b : MNode :=
  .scheduleStart none [.delay 5 .START 0 [.startedProtocol "C" 2 none none none []]]

/-- The optimizer tree `protocol_to_opt` produces from `rootC1` (no observed
times, so offsets are unchanged). -/
def optC1 : ONode :=
  .start 0 [.protocol 2 "P" 5 none none
    [.delay 7 3 .START 0 [.protocol 3 "C" 2 none none []]]]

/-- The optimizer tree `protocol_to_opt` produces from `rootC2a`. -/
def optC2a : ONode := .start 0 [.protocol 1 "P" 5 none none []]

/-- The optimizer tree `protocol_to_opt` produces from `rootC6` (reference
instant 100, so the observed offsets are 0/6 and 7). -/
def optC6 : ONode :=
  .start 0 [.protocol 1 "A" 5 (some 0) (some 6) [.protocol 2 "B" 4 (some 7) none []]]

/-- The state invariant of the await-list system: the pending queue is
strictly sorted in the lexicographic task order, identifiers are below the
fresh counter, the yielded history is sorted, every yielded token precedes
every pending one, and yielded tokens were due at or before the current
instant. -/
def InvA (st : AState) : Prop :=
  st.pending.Pairwise lexLT ∧
  (∀ p ∈ st.pending, p.tid < st.nextId) ∧
  st.yielded.Pairwise lexLT ∧
  (∀ y ∈ st.yielded, ∀ p ∈ st.pending, lexLT y p) ∧
  (∀ y ∈ st.yielded, y.execTime ≤ st.now) ∧
  (∀ y ∈ st.yielded, y.tid < st.nextId)

theorem foldlMin_le_seed (ts : List Int) (t : Int) : ts.foldl min t ≤ t := by
  induction ts generalizing t with
  | nil => simp
  | cons c cs ih => exact le_trans (ih (min t c)) (min_le_left t c)

theorem foldlMin_mem (ts : List Int) (t : Int) : ts.foldl min t ∈ t :: ts := by
  induction ts generalizing t with
  | nil => simp
  | cons c cs ih =>
    have h := ih (min t c)
    simp only [List.foldl_cons]
    rcases List.mem_cons.mp h with h1 | h2
    · rcases min_choice t c with hm | hm
      · rw [h1, hm]; simp
      · rw [h1, hm]; simp
    · exact List.mem_cons_of_mem _ (List.mem_cons_of_mem _ h2)

theorem foldlMin_le (ts : List Int) (t x : Int) (hx : x ∈ t :: ts) :
    ts.foldl min t ≤ x := by
  induction ts generalizing t with
  | nil =>
    simp only [List.mem_singleton] at hx
    subst hx
    simp
  | cons c cs ih =>
    simp only [List.foldl_cons]
    rcases List.mem_cons.mp hx with h1 | h2
    · subst h1
      exact le_trans (foldlMin_le_seed cs (min x c)) (min_le_left x c)
    · rcases List.mem_cons.mp h2 with hc | hcs
      · subst hc
        exact le_trans (foldlMin_le_seed cs (min t x)) (min_le_right t x)
      · exact ih (min t c) (List.mem_cons_of_mem _ hcs)

/-- C9 (amended): `get_oldest_time` returns the present moment when no
`Protocol` in the list has a `started_time`; when at least one does, it
returns the earliest started timestamp — but only provided that minimum is
not exactly `0` (the epoch), because `0` doubles as the `min` default that
signals absence. -/
theorem C9_amended :
    (∀ nodes now, startedTimes nodes = [] → getOldestTime nodes now = now) ∧
    (∀ nodes now t ts, startedTimes nodes = t :: ts → ts.foldl min t ≠ 0 →
      getOldestTime nodes now = ts.foldl min t ∧ ts.foldl min t ∈ t :: ts ∧
      ∀ x ∈ t :: ts, ts.foldl min t ≤ x) := by
  constructor
  · intro nodes now h
    simp [getOldestTime, h]
  · intro nodes now t ts h hne
    refine ⟨?_, foldlMin_mem ts t, fun x hx => foldlMin_le ts t x hx⟩
    simp [getOldestTime, h, hne]

/-- C9 witness: on a list with one started protocol (timestamp 3), the
reference instant is 3, not the present moment 99. -/
theorem C9_witness :
    startedTimes nodesC9w = [3] ∧
    (getOldestTime nodesC9w 99 = ([] : List Int).foldl min 3 ∧
      ([] : List Int).foldl min 3 ∈ [3] ∧
      ∀ x ∈ [3], ([] : List Int).foldl min 3 ≤ x) :=
  ⟨by decide, C9_amended.2 nodesC9w 99 3 [] (by decide) (by decide)⟩

/-- C9 counterexample: a protocol whose `started_time` is exactly the epoch
(timestamp 0) exists, yet `get_oldest_time` returns the present moment 7
instead of the earliest started time 0. -/
theorem C9_counterexample :
    startedTimes nodesC9 = [0] ∧ getOldestTime nodesC9 7 = 7 ∧ (7 : Int) ≠ 0 := by
  decide

/-- C4 counterexample: node 1 is already in the rooted tree of node 0, yet
`Node.add` does not fail — it changes node 0, appending a duplicate child
edge. -/
theorem C4_counterexample :
    inRootedTree heapAB 5 0 1 = true ∧ addNode heapAB 0 1 0 ≠ heapAB 0 ∧
    addNode heapAB 0 1 0 = ⟨none, [1, 1]⟩ := by decide

/-- C4 (amended): `Node.add` performs no cycle check and never fails: for
every receiver `r` and child `c` it unconditionally appends `c` to `r`'s
children and sets `c`'s predecessor to `r`, leaving every other node
untouched — even when `c` is already in `r`'s rooted tree. -/
theorem C4_amended (h : Heap) (r c : Nat) :
    ((addNode h r c) c).pre = some r ∧
    ((addNode h r c) r).post = (h r).post ++ [c] ∧
    ∀ i, i ≠ r → i ≠ c → (addNode h r c) i = h i := by
  refine ⟨by simp [addNode], ?_, ?_⟩
  · by_cases hrc : r = c
    · subst hrc
      simp [addNode]
    · simp [addNode, hrc, Ne.symm hrc]
  · intro i hir hic
    simp [addNode, hic, hir]

/-- C4 witness: the amended statement at the concrete heap `heapAB` with
receiver 5 and child 6. -/
theorem C4_witness :
    ((addNode heapAB 5 6) 6).pre = some 5 ∧
    ((addNode heapAB 5 6) 5).post = (heapAB 5).post ++ [6] ∧
    ∀ i, i ≠ 5 → i ≠ 6 → (addNode heapAB 5 6) i = heapAB i :=
  C4_amended heapAB 5 6

/-- C3 (amended): when the optimizer fails inside `Executor.optimize`, the
error is surfaced and the graphs, pending tasks and saved snapshots are
unchanged — but the reset loop is skipped, so the `pre_node` of every
first-level child of every submitted graph is left pointing at the synthetic
merged root rather than at its own `Start`. -/
theorem C3_amended (st : ExecState) (mid ntid : Nat) (e : String) :
    (executorOptimize st mid ntid (.error e)).2 = .error e ∧
    (executorOptimize st mid ntid (.error e)).1.graphs = st.graphs ∧
    (executorOptimize st mid ntid (.error e)).1.tasks = st.tasks ∧
    (executorOptimize st mid ntid (.error e)).1.saved = st.saved ∧
    (executorOptimize st mid ntid (.error e)).1.childPre = mergedPre st.graphs mid :=
  ⟨rfl, rfl, rfl, rfl, rfl⟩

/-- C3 counterexample: with one submitted graph `Start(0) → Protocol(1)` and
a failing optimizer, the error is surfaced but the first-level child's
`pre_node` is left at the merged root 100 instead of again pointing at the
graph's own `Start` 0. -/
theorem C3_counterexample :
    (executorOptimize stateC3 100 200 (.error "No optimal schedule found.")).2 =
      .error "No optimal schedule found." ∧
    (executorOptimize stateC3 100 200 (.error "No optimal schedule found.")).1.childPre =
      [(1, 100)] ∧
    ownPre stateC3.graphs = [(1, 0)] ∧ ((1, 100) : Nat × Nat) ≠ (1, 0) := by decide

/-- C5: the round-trip fails on schedule graphs.  Encoding stores the time
fields as raw `datetime` objects while decoding applies
`datetime.fromtimestamp` to them, so decoding a started protocol with
`start_time` set raises `TypeError`; and `schedule_from_dict` checks a
delay's decoded successors for the exact type `Protocol`, which schedule
decoding never produces, so any delay with a successor fails to decode. -/
theorem C5_theorem :
    scheduleFromDict (toDict schedC5a) =
      .error "TypeError: fromtimestamp expects a number" ∧
    scheduleFromDict (toDict schedC5b) = .error "Invalid post_node type" := by decide

/-- C10 counterexample: on `Start → Delay → Protocol`, `plan2schedule` does
not return the one-to-one shape-preserving conversion the claim describes —
the delay ends up with two children, its original plan `Protocol` followed
by the converted `StartedProtocol`. -/
theorem C10_counterexample :
    plan2schedule planC10 ≠ .ok (claimedP2s planC10) ∧
    plan2schedule planC10 =
      .ok (.scheduleStart none [.delay 5 .START 0
        [.protocol "C" 2 [], .startedProtocol "C" 2 none none none []]]) := by decide

mutual

theorem p2s_planChild : ∀ c, isPlanChild c = true →
    plan2schedule c = .ok (actualP2s c) ∧ mutView c = .ok (actualMut c) ∧
    ((actualP2s c).isStartedM || (actualP2s c).isDelayM) = true
  | .protocol nm d post, h => by
    have hl := p2s_planList post (by simpa [isPlanChild] using h)
    refine ⟨?_, ?_, by simp [actualP2s, MNode.isStartedM]⟩
    · simp [plan2schedule, hl.1, hl.2.2, actualP2s]
    · simp [mutView, hl.2.1, actualMut]
  | .delay dd ft off post, h => by
    have hl := p2s_planList post (by simpa [isPlanChild] using h)
    refine ⟨?_, ?_, by simp [actualP2s, MNode.isStartedM, MNode.isDelayM]⟩
    · simp [plan2schedule, hl.1, hl.2.1, hl.2.2, actualP2s]
    · simp [mutView, hl.1, hl.2.1, actualMut]
  | .start post, h => by simp [isPlanChild] at h
  | .scheduleStart st post, h => by simp [isPlanChild] at h
  | .startedProtocol nm d sc st en post, h => by simp [isPlanChild] at h

theorem p2s_planList : ∀ l, isPlanChildList l = true →
    p2sList l = .ok (actualP2sList l) ∧ mutViewList l = .ok (actualMutList l) ∧
    (actualP2sList l).all (fun c => c.isStartedM || c.isDelayM) = true
  | [], _ => by simp [p2sList, mutViewList, actualP2sList, actualMutList]
  | c :: cs, h => by
    have hsplit := (Bool.and_eq_true _ _).mp (by simpa [isPlanChildList] using h)
    have hc := p2s_planChild c hsplit.1
    have hcs := p2s_planList cs hsplit.2
    refine ⟨?_, ?_, ?_⟩
    · simp [p2sList, hc.1, hcs.1, actualP2sList]
    · simp [mutViewList, hc.2.1, hcs.2.1, actualMutList]
    · simp [actualP2sList, List.all_cons, hc.2.2, hcs.2.2]

end

/-- C10 (amended): on every `Start`-rooted plan tree, `plan2schedule`
succeeds and returns `actualP2s`: `Start` maps to a fresh `ScheduleStart` and
`Protocol` to a fresh `StartedProtocol` with the same name and duration,
unset time fields and children converted one-to-one — but each `Delay` node
is reused in place, so its converted children are appended after its
(recursively rewritten) original children and its child count doubles. -/
theorem C10_amended : ∀ t, isPlanRoot t = true → plan2schedule t = .ok (actualP2s t) := by
  intro t h
  cases t with
  | start post =>
    have hl := p2s_planList post (by simpa [isPlanRoot] using h)
    simp [plan2schedule, hl.1, hl.2.2, actualP2s]
  | scheduleStart st post => simp [isPlanRoot] at h
  | delay d f o post => simp [isPlanRoot] at h
  | protocol nm d post => simp [isPlanRoot] at h
  | startedProtocol nm d sc st en post => simp [isPlanRoot] at h

/-- C10 witness: the amended statement at the concrete plan tree
`Start → Delay → Protocol`. -/
theorem C10_witness :
    isPlanRoot planC10 = true ∧ plan2schedule planC10 = .ok (actualP2s planC10) :=
  ⟨by decide, C10_amended planC10 (by decide)⟩

/-- C1 counterexample: for a delay with `from_type = START`, `set_loss`
posts the constraints anchored at the parent's `finish_time` variable — not
the `start_time` anchor the claim prescribes for `START`. -/
theorem C1_counterexample :
    (setLoss ⟨[], [], [], none⟩ (some (.protocol 2 "P" 5 none none []))
        (.delay 7 3 .START 0 [.protocol 3 "C" 2 none none []])).constraints =
      actualLossConstraints 2 3 7 3 ∧
    actualLossConstraints 2 3 7 3 ≠ claimedLossConstraints 2 3 7 .START 3 := by decide

/-- C2 counterexample: with a merely `FEASIBLE` solver outcome
`optimize_schedule` raises instead of succeeding; and on `OPTIMAL` it writes
`scheduled_time = t0 + start` into a protocol that is already finished
(the claim restricts the write to unfinished protocols). -/
theorem C2_counterexample :
    optimizeSchedule rootC2a 100 .FEASIBLE (fun _ => 0) =
      .error "No optimal schedule found." ∧
    optimizeSchedule rootC2b 200 .OPTIMAL (fun _ => 3) =
      .ok (.start 0 [.protocol 1 "P" 5 (some 103) (some 100) (some 105) []]) := by decide

/-- C7 counterexample: after a successful solve with no unstarted protocol,
`Executor.optimize` returns without enqueuing — but also without persisting
(`saved` stays empty), contrary to the claim's "the current state is
persisted". -/
theorem C7_counterexample :
    (executorOptimize stateC7 100 200 (.ok fun _ => none)).2 = .ok () ∧
    (executorOptimize stateC7 100 200 (.ok fun _ => none)).1.tasks = [] ∧
    (executorOptimize stateC7 100 200 (.ok fun _ => none)).1.saved = [] ∧
    unstartedOf (schedGraphs (fun _ => none) stateC7.graphs) = [] := by decide

/-- C8 counterexample: adding a task whose execution time already passed
after an earlier token was yielded makes `wait_for_next_task` yield execution
times 10 then 5 — a decreasing sequence. -/
theorem C8_counterexample :
    (runA initA traceC8).yielded = [⟨10, 0, "a"⟩, ⟨5, 1, "b"⟩] ∧
    ¬ (runA initA traceC8).yielded.Pairwise (fun a b => a.execTime ≤ b.execTime) := by
  decide

theorem lossChildLoop_eq (pid did : Nat) (pnm : String) (pdur : Int)
    (pst pfi : Option Int) (ppost : List ONode) (target : Int) :
    ∀ (cs : List ONode) (m : CPModel),
      lossChildLoop (some (.protocol pid pnm pdur pst pfi ppost)) did target m cs =
        { m with constraints := m.constraints ++ cs.flatMap fun c =>
            match c with
            | .protocol cid _ _ _ _ _ => actualLossConstraints pid cid did target
            | _ => [] } := by
  intro cs
  induction cs with
  | nil => intro m; cases m; simp [lossChildLoop]
  | cons c cs ih =>
    intro m
    cases c with
    | protocol cid cnm cdur cst cfi cpost =>
      cases m
      simp [lossChildLoop, addConstr, actualLossConstraints, ih, List.append_assoc]
    | start i post => simp [lossChildLoop, ih]
    | delay i d f o post => simp [lossChildLoop, ih]

theorem lossChildLoop_id (pre : Option ONode) (did : Nat) (target : Int)
    (h : ∀ pid nm d st fi post, pre ≠ some (ONode.protocol pid nm d st fi post)) :
    ∀ (cs : List ONode) (m : CPModel), lossChildLoop pre did target m cs = m := by
  intro cs
  induction cs with
  | nil => intro m; simp [lossChildLoop]
  | cons c cs ih =>
    intro m
    cases pre with
    | none => cases c <;> simp [lossChildLoop, ih]
    | some x =>
      cases x with
      | protocol pid nm d st fi post => exact absurd rfl (h pid nm d st fi post)
      | start i post => cases c <;> simp [lossChildLoop, ih]
      | delay i d f o post => cases c <;> simp [lossChildLoop, ih]

theorem setLoss_pair_spec :
    ∀ (m : CPModel) (pn : Option ONode × ONode),
      (setLoss m pn.1 pn.2).constraints = m.constraints ++ lossChunk pn.1 pn.2 ∧
      (setLoss m pn.1 pn.2).intervals = m.intervals := by
  intro m pn
  obtain ⟨pre, dn⟩ := pn
  cases dn with
  | delay did ddur ft doff children =>
    cases pre with
    | none =>
      rw [show setLoss m none (.delay did ddur ft doff children) =
        lossChildLoop none did (ddur + doff) (addVar m (.lossV did) 0 (ddur * 2)) children
        from rfl]
      rw [lossChildLoop_id none did (ddur + doff) (by intro pid nm d st fi post h; cases h)]
      simp [addVar, lossChunk]
    | some x =>
      cases x with
      | protocol pid pnm pdur pst pfi ppost =>
        rw [show setLoss m (some (.protocol pid pnm pdur pst pfi ppost))
            (.delay did ddur ft doff children) =
          lossChildLoop (some (.protocol pid pnm pdur pst pfi ppost)) did (ddur + doff)
            (addVar m (.lossV did) 0 (ddur * 2)) children from rfl]
        rw [lossChildLoop_eq pid did pnm pdur pst pfi ppost (ddur + doff) children]
        simp [addVar, lossChunk]
      | start i post =>
        rw [show setLoss m (some (.start i post)) (.delay did ddur ft doff children) =
          lossChildLoop (some (.start i post)) did (ddur + doff)
            (addVar m (.lossV did) 0 (ddur * 2)) children from rfl]
        rw [lossChildLoop_id (some (.start i post)) did (ddur + doff)
          (by intro pid nm d st fi post h; cases h)]
        simp [addVar, lossChunk]
      | delay i d f o post =>
        rw [show setLoss m (some (.delay i d f o post)) (.delay did ddur ft doff children) =
          lossChildLoop (some (.delay i d f o post)) did (ddur + doff)
            (addVar m (.lossV did) 0 (ddur * 2)) children from rfl]
        rw [lossChildLoop_id (some (.delay i d f o post)) did (ddur + doff)
          (by intro pid nm d st fi post h; cases h)]
        simp [addVar, lossChunk]
  | start i post => simp [setLoss, lossChunk]
  | protocol i nm d st fi post => simp [setLoss, lossChunk]

theorem foldl_constraints_chunks {α : Type} (g : CPModel → α → CPModel)
    (chunk : α → List Constr)
    (hg : ∀ m a, (g m a).constraints = m.constraints ++ chunk a ∧
      (g m a).intervals = m.intervals) :
    ∀ (l : List α) (m : CPModel),
      (l.foldl g m).constraints = m.constraints ++ l.flatMap chunk ∧
      (l.foldl g m).intervals = m.intervals := by
  intro l
  induction l with
  | nil => intro m; simp
  | cons a l ih =>
    intro m
    simp only [List.foldl_cons, List.flatMap_cons]
    refine ⟨?_, ?_⟩
    · rw [(ih (g m a)).1, (hg m a).1, List.append_assoc]
    · rw [(ih (g m a)).2, (hg m a).2]

theorem orderStep_spec :
    ∀ (m : CPModel) (n : ONode),
      (orderStep m n).constraints = m.constraints ++ orderChunk n ∧
      (orderStep m n).intervals = m.intervals := by
  intro m n
  cases n with
  | protocol pid nm d st fi post =>
    have hinner := foldl_constraints_chunks
      (fun acc c =>
        match c with
        | .protocol cid _ _ _ _ _ =>
            addConstr acc (.leC (.var (.finishT pid)) (.var (.startT cid)))
        | _ => acc)
      (fun c =>
        match c with
        | .protocol cid _ _ _ _ _ => [Constr.leC (.var (.finishT pid)) (.var (.startT cid))]
        | _ => [])
      (by
        intro m' c
        cases c <;> simp [addConstr])
      post m
    exact ⟨hinner.1, hinner.2⟩
  | start i post => simp [orderStep, orderChunk]
  | delay i d f o post => simp [orderStep, orderChunk]

theorem protStep_fold (maxTime : Int) :
    ∀ (l : List ONode) (m : CPModel) (ivs : List Nat),
      l.foldl (protStep maxTime) (m, ivs) =
        ({ m with vars := m.vars ++ l.flatMap (protVarsEmit maxTime),
                  constraints := m.constraints ++ l.flatMap protEmit },
         ivs ++ l.filterMap protInterval) := by
  intro l
  induction l with
  | nil => intro m ivs; cases m; simp
  | cons n l ih =>
    intro m ivs
    simp only [List.foldl_cons]
    cases n with
    | protocol pid nm d st fi post =>
      cases m
      rcases st with _ | s
      · simp [protStep, setVars, addVar, addConstr, ih, protVarsEmit, protEmit,
          protInterval, List.append_assoc]
      · rcases fi with _ | f
        · simp [protStep, setVars, addVar, addConstr, ih, protVarsEmit, protEmit,
            protInterval, List.append_assoc]
        · simp [protStep, setVars, addVar, addConstr, ih, protVarsEmit, protEmit,
            protInterval, List.append_assoc]
    | start i post =>
      simp [protStep, ih, protVarsEmit, protEmit, protInterval]
    | delay i d f o post =>
      simp [protStep, ih, protVarsEmit, protEmit, protInterval]

theorem buildModel_eq (root : PTree) (now : Int) (opt : ONode)
    (hconv : protocolToOpt (getOldestTime (PTree.flat root) now) root = .ok opt) :
    buildModel root now =
      .ok (finalModel root opt, opt, getOldestTime (PTree.flat root) now) := by
  simp only [buildModel, finalModel, hconv]

theorem finalModel_constraints (root : PTree) (opt : ONode) :
    (finalModel root opt).constraints =
      (protocolNodesOf opt).flatMap protEmit ++
        ((protocolNodesOf opt).flatMap orderChunk ++
          (delaysWithPre opt).flatMap fun pn => lossChunk pn.1 pn.2) := by
  have horder := foldl_constraints_chunks orderStep orderChunk orderStep_spec
    (protocolNodesOf opt)
  have hdelay := foldl_constraints_chunks (fun acc pn => setLoss acc pn.1 pn.2)
    (fun pn => lossChunk pn.1 pn.2) setLoss_pair_spec (delaysWithPre opt)
  simp only [finalModel, protStep_fold]
  rw [show ∀ m5 : CPModel, ∀ o, ({ m5 with objective := o } : CPModel).constraints =
      m5.constraints from fun m5 o => rfl]
  rw [(hdelay _).1, (horder _).1]
  simp [addVar, List.append_assoc]

theorem finalModel_intervals (root : PTree) (opt : ONode) :
    (finalModel root opt).intervals = (protocolNodesOf opt).filterMap protInterval := by
  have horder := foldl_constraints_chunks orderStep orderChunk orderStep_spec
    (protocolNodesOf opt)
  have hdelay := foldl_constraints_chunks (fun acc pn => setLoss acc pn.1 pn.2)
    (fun pn => lossChunk pn.1 pn.2) setLoss_pair_spec (delaysWithPre opt)
  simp only [finalModel, protStep_fold]
  rw [show ∀ m5 : CPModel, ∀ o, ({ m5 with objective := o } : CPModel).intervals =
      m5.intervals from fun m5 o => rfl]
  rw [(hdelay _).2, (horder _).2]
  simp [addVar]

/-- C1 (amended): for a `Delay` with a `Protocol` parent `P` and `Protocol`
successors, `set_loss` declares `loss` in `[0, 2·duration]` and, per
successor `C`, posts exactly the two constraints
`loss >= e` and `loss <= e` with `e = (C.start − P.finish) − (duration +
offset)` — the anchor is always the parent's finish variable, whatever the
delay's `from_type` says; and these constraints are part of the model
`optimize_schedule` builds. -/
theorem C1_amended :
    (∀ (m : CPModel) pid pnm pdur pst pfi ppost did ddur ft doff
        (children : List ONode),
      setLoss m (some (.protocol pid pnm pdur pst pfi ppost))
          (.delay did ddur ft doff children) =
        { m with
          vars := m.vars ++ [(.lossV did, 0, ddur * 2)],
          constraints := m.constraints ++ children.flatMap fun c =>
            match c with
            | .protocol cid _ _ _ _ _ => actualLossConstraints pid cid did (ddur + doff)
            | _ => [] }) ∧
    (∀ root now opt,
      protocolToOpt (getOldestTime (PTree.flat root) now) root = .ok opt →
      buildModel root now =
          .ok (finalModel root opt, opt, getOldestTime (PTree.flat root) now) ∧
      ∀ pn ∈ delaysWithPre opt, ∀ x ∈ lossChunk pn.1 pn.2,
        x ∈ (finalModel root opt).constraints) := by
  constructor
  · intro m pid pnm pdur pst pfi ppost did ddur ft doff children
    rw [show setLoss m (some (.protocol pid pnm pdur pst pfi ppost))
        (.delay did ddur ft doff children) =
      lossChildLoop (some (.protocol pid pnm pdur pst pfi ppost)) did (ddur + doff)
        (addVar m (.lossV did) 0 (ddur * 2)) children from rfl]
    rw [lossChildLoop_eq pid did pnm pdur pst pfi ppost (ddur + doff) children]
    cases m
    simp [addVar]
  · intro root now opt hconv
    refine ⟨buildModel_eq root now opt hconv, ?_⟩
    intro pn hpn x hx
    rw [finalModel_constraints]
    exact List.mem_append_right _
      (List.mem_append_right _ (List.mem_flatMap.mpr ⟨pn, hpn, hx⟩))

/-- C1 witness: the global part of the amended statement at the concrete
graph `rootC1` (whose delay has `from_type = START`). -/
theorem C1_witness :
    buildModel rootC1 50 =
        .ok (finalModel rootC1 optC1, optC1, getOldestTime (PTree.flat rootC1) 50) ∧
    ∀ pn ∈ delaysWithPre optC1, ∀ x ∈ lossChunk pn.1 pn.2,
      x ∈ (finalModel rootC1 optC1).constraints :=
  C1_amended.2 rootC1 50 optC1 (by decide)

mutual

theorem protocolToOpt_views (t0 : Int) : ∀ (t : PTree) (opt : ONode),
    protocolToOpt t0 t = .ok opt → oViews opt = (protViews t).map (viewToOpt t0)
  | .start i post, opt, h => by
    cases hc : optChildren t0 post with
    | error e =>
      simp only [protocolToOpt, hc] at h
      exact Except.noConfusion h
    | ok posts =>
      simp only [protocolToOpt, hc] at h
      cases h
      simp only [oViews, protViews]
      exact optChildren_views t0 post posts hc
  | .protocol i nm dur sc st fi post, opt, h => by
    cases hc : optChildren t0 post with
    | error e =>
      simp only [protocolToOpt, hc] at h
      exact Except.noConfusion h
    | ok posts =>
      simp only [protocolToOpt, hc] at h
      cases h
      simp only [oViews, protViews, List.map_cons]
      rw [optChildren_views t0 post posts hc]
      rfl
  | .delay i dur ft off post, opt, h => by
    cases hc : optChildren t0 post with
    | error e =>
      simp only [protocolToOpt, hc] at h
      exact Except.noConfusion h
    | ok posts =>
      simp only [protocolToOpt, hc] at h
      cases hall : posts.all ONode.isProt with
      | false =>
        rw [hall] at h
        simp only [Bool.false_eq_true, if_false] at h
        exact Except.noConfusion h
      | true =>
        rw [hall] at h
        simp only [if_true] at h
        cases h
        simp only [oViews, protViews]
        rw [List.filter_eq_self.mpr fun a ha => List.all_eq_true.mp hall a ha]
        exact optChildren_views t0 post posts hc

theorem optChildren_views (t0 : Int) : ∀ (l : List PTree) (rs : List ONode),
    optChildren t0 l = .ok rs → oViewsList rs = (protViewsList l).map (viewToOpt t0)
  | [], rs, h => by
    simp only [optChildren] at h
    cases h
    simp [oViewsList, protViewsList]
  | .start i post :: cs, rs, h => by
    simp only [optChildren] at h
    exact Except.noConfusion h
  | .protocol i nm dur sc st fi post :: cs, rs, h => by
    cases hr : protocolToOpt t0 (.protocol i nm dur sc st fi post) with
    | error e =>
      simp only [optChildren, hr] at h
      exact Except.noConfusion h
    | ok r =>
      cases hcs : optChildren t0 cs with
      | error e =>
        simp only [optChildren, hr, hcs] at h
        exact Except.noConfusion h
      | ok rs' =>
        simp only [optChildren, hr, hcs] at h
        cases h
        simp only [oViewsList, protViewsList, List.map_append]
        rw [protocolToOpt_views t0 _ r hr, optChildren_views t0 cs rs' hcs]
  | .delay i dur ft off post :: cs, rs, h => by
    cases hr : protocolToOpt t0 (.delay i dur ft off post) with
    | error e =>
      simp only [optChildren, hr] at h
      exact Except.noConfusion h
    | ok r =>
      cases hcs : optChildren t0 cs with
      | error e =>
        simp only [optChildren, hr, hcs] at h
        exact Except.noConfusion h
      | ok rs' =>
        simp only [optChildren, hr, hcs] at h
        cases h
        simp only [oViewsList, protViewsList, List.map_append]
        rw [protocolToOpt_views t0 _ r hr, optChildren_views t0 cs rs' hcs]

end

mutual

theorem oViews_flat : ∀ n : ONode,
    oViews n = ((ONode.flat n).filter ONode.isProt).map viewOfO
  | .start i post => by
    simp [ONode.flat, oViews, List.filter_cons, ONode.isProt, oViewsList_flat post]
  | .protocol i nm d st fi post => by
    simp [ONode.flat, oViews, List.filter_cons, ONode.isProt, viewOfO,
      oViewsList_flat post]
  | .delay i d f o post => by
    simp [ONode.flat, oViews, List.filter_cons, ONode.isProt, oViewsList_flat post]

theorem oViewsList_flat : ∀ l : List ONode,
    oViewsList l = ((ONode.flatList l).filter ONode.isProt).map viewOfO
  | [] => by simp [oViewsList, ONode.flatList]
  | c :: cs => by
    simp only [oViewsList, ONode.flatList, List.filter_append, List.map_append]
    rw [oViews_flat c, oViewsList_flat cs]

end

theorem oViews_protocolNodes (n : ONode) :
    oViews n = (protocolNodesOf n).map viewOfO :=
  oViews_flat n

theorem protNodes_ids_eq (root : PTree) (t0 : Int) (opt : ONode)
    (hconv : protocolToOpt t0 root = .ok opt) :
    (protocolNodesOf opt).map ONode.idOf = (protViews root).map PView.vid := by
  have h1 : (protocolNodesOf opt).map ONode.idOf = (oViews opt).map OView.wid := by
    rw [oViews_protocolNodes, List.map_map]
    have : (OView.wid ∘ viewOfO) = ONode.idOf := by
      funext n
      cases n <;> rfl
    rw [this]
  have h2 : (oViews opt).map OView.wid = (protViews root).map PView.vid := by
    rw [protocolToOpt_views t0 root opt hconv, List.map_map]
    have : (OView.wid ∘ viewToOpt t0) = PView.vid := by
      funext v
      rfl
    rw [this]
  rw [h1, h2]

theorem protViews_vid_mem (root : PTree) (t0 : Int) (opt : ONode)
    (hconv : protocolToOpt t0 root = .ok opt) :
    ∀ v ∈ protViews root, v.vid ∈ (protocolNodesOf opt).map ONode.idOf := by
  intro v hv
  rw [protNodes_ids_eq root t0 opt hconv]
  exact List.mem_map_of_mem _ hv

mutual

theorem protViews_setSchedAll : ∀ (i : Nat) (x : Int) (t : PTree),
    protViews (setSchedAll i x t) = (protViews t).map fun v =>
      if v.vid = i then ⟨v.vid, v.vname, v.vduration, some x, v.vstarted, v.vfinished⟩
      else v
  | i, x, .start j post => by
    simp only [setSchedAll, protViews]
    exact protViewsList_setSchedAll i x post
  | i, x, .protocol j nm d sc st fi post => by
    by_cases hj : j = i
    · simp only [setSchedAll, if_pos hj, protViews, List.map_cons]
      rw [protViewsList_setSchedAll i x post]
    · simp only [setSchedAll, if_neg hj, protViews, List.map_cons]
      rw [protViewsList_setSchedAll i x post]

  | i, x, .delay j d f o post => by
    simp only [setSchedAll, protViews]
    exact protViewsList_setSchedAll i x post

theorem protViewsList_setSchedAll : ∀ (i : Nat) (x : Int) (l : List PTree),
    protViewsList (setSchedAllList i x l) = (protViewsList l).map fun v =>
      if v.vid = i then ⟨v.vid, v.vname, v.vduration, some x, v.vstarted, v.vfinished⟩
      else v
  | i, x, [] => by simp [setSchedAllList, protViewsList]
  | i, x, c :: cs => by
    simp only [setSchedAllList, protViewsList, List.map_append]
    rw [protViews_setSchedAll i x c, protViewsList_setSchedAll i x cs]

end

theorem protViews_writeBack :
    ∀ (ids : List Nat) (t : PTree) (t0 : Int) (sol : CVar → Int),
      protViews (writeBack t t0 sol ids) = (protViews t).map fun v =>
        if v.vid ∈ ids then
          ⟨v.vid, v.vname, v.vduration, some (t0 + sol (.startT v.vid)),
           v.vstarted, v.vfinished⟩
        else v := by
  intro ids
  induction ids with
  | nil =>
    intro t t0 sol
    simp [writeBack]
  | cons i ids ih =>
    intro t t0 sol
    rw [show writeBack t t0 sol (i :: ids) =
      writeBack (setSchedAll i (t0 + sol (.startT i)) t) t0 sol ids from rfl]
    rw [ih, protViews_setSchedAll, List.map_map]
    apply List.map_congr_left
    intro v _
    simp only [Function.comp]
    by_cases h1 : v.vid = i
    · subst h1
      by_cases h2 : v.vid ∈ ids <;> simp [h2]
    · by_cases h2 : v.vid ∈ ids <;> simp [h1, h2, List.mem_cons]

/-- C2 (amended): `optimize_schedule` succeeds exactly when the abstracted
solver reports `OPTIMAL` — any other status, a merely feasible one included,
raises `ValueError("No optimal schedule found.")` and leaves the graph
untouched; on `OPTIMAL` it writes `scheduled_time = t0 + start` into every
matching `Protocol` node, the already-finished ones included. -/
theorem C2_amended (root : PTree) (now : Int) (st : CpStatus) (sol : CVar → Int)
    (opt : ONode)
    (hconv : protocolToOpt (getOldestTime (PTree.flat root) now) root = .ok opt) :
    (st ≠ .OPTIMAL →
      optimizeSchedule root now st sol = .error "No optimal schedule found.") ∧
    (st = .OPTIMAL →
      (optimizeSchedule root now st sol).map protViews =
        .ok ((protViews root).map fun v =>
          ⟨v.vid, v.vname, v.vduration,
           some (getOldestTime (PTree.flat root) now + sol (.startT v.vid)),
           v.vstarted, v.vfinished⟩)) := by
  have hbm := buildModel_eq root now opt hconv
  constructor
  · intro hst
    simp [optimizeSchedule, hbm, hst]
  · intro hst
    subst hst
    simp only [optimizeSchedule, hbm, if_true]
    simp only [Except.map]
    rw [protViews_writeBack]
    congr 1
    apply List.map_congr_left
    intro v hv
    have hvid := protViews_vid_mem root (getOldestTime (PTree.flat root) now) opt hconv v hv
    simp [hvid]

/-- C2 witness: the amended statement at the concrete graph `rootC2a` with an
`OPTIMAL` solver outcome assigning start 0. -/
theorem C2_witness :
    (CpStatus.OPTIMAL ≠ CpStatus.OPTIMAL →
      optimizeSchedule rootC2a 100 .OPTIMAL (fun _ => 0) =
        .error "No optimal schedule found.") ∧
    (CpStatus.OPTIMAL = CpStatus.OPTIMAL →
      (optimizeSchedule rootC2a 100 .OPTIMAL (fun _ => 0)).map protViews =
        .ok ((protViews rootC2a).map fun v =>
          ⟨v.vid, v.vname, v.vduration,
           some (getOldestTime (PTree.flat rootC2a) 100 + (fun _ : CVar => (0 : Int)) (.startT v.vid)),
           v.vstarted, v.vfinished⟩)) :=
  C2_amended rootC2a 100 .OPTIMAL (fun _ => 0) optC2a (by decide)

/-- C6 (confirmed): a `Protocol` with both `started_time` and
`finished_time` set has its `start` and `finish` variables fixed to the
observed offsets and contributes no interval to the global no-overlap list;
a `Protocol` with only `started_time` set has its `start` fixed but still
contributes its interval. -/
theorem C6_confirmed (root : PTree) (now : Int) (opt : ONode)
    (hconv : protocolToOpt (getOldestTime (PTree.flat root) now) root = .ok opt)
    (hnd : ((protViews root).map PView.vid).Nodup) :
    buildModel root now =
        .ok (finalModel root opt, opt, getOldestTime (PTree.flat root) now) ∧
    (∀ v ∈ protViews root, ∀ s f, v.vstarted = some s → v.vfinished = some f →
      Constr.eqC (.var (.startT v.vid))
          (.const (s - getOldestTime (PTree.flat root) now)) ∈
        (finalModel root opt).constraints ∧
      Constr.eqC (.var (.finishT v.vid))
          (.const (f - getOldestTime (PTree.flat root) now)) ∈
        (finalModel root opt).constraints ∧
      v.vid ∉ (finalModel root opt).intervals) ∧
    (∀ v ∈ protViews root, ∀ s, v.vstarted = some s → v.vfinished = none →
      Constr.eqC (.var (.startT v.vid))
          (.const (s - getOldestTime (PTree.flat root) now)) ∈
        (finalModel root opt).constraints ∧
      v.vid ∈ (finalModel root opt).intervals) := by
  set t0 := getOldestTime (PTree.flat root) now with ht0
  have hids : (protocolNodesOf opt).map ONode.idOf = (protViews root).map PView.vid :=
    protNodes_ids_eq root t0 opt hconv
  have hnd' : ((protocolNodesOf opt).map ONode.idOf).Nodup := by rw [hids]; exact hnd
  have hviews : oViews opt = (protViews root).map (viewToOpt t0) :=
    protocolToOpt_views t0 root opt hconv
  have hnode : ∀ v ∈ protViews root, ∃ n ∈ protocolNodesOf opt, viewOfO n = viewToOpt t0 v := by
    intro v hv
    have : viewToOpt t0 v ∈ oViews opt := by
      rw [hviews]
      exact List.mem_map_of_mem _ hv
    rw [oViews_protocolNodes] at this
    obtain ⟨n, hn, hvn⟩ := List.mem_map.mp this
    exact ⟨n, hn, hvn⟩
  refine ⟨buildModel_eq root now opt hconv, ?_, ?_⟩
  · intro v hv s f hs hf
    obtain ⟨n, hn, hvn⟩ := hnode v hv
    have hisp : ONode.isProt n = true := (List.mem_filter.mp hn).2
    cases n with
    | start i post => simp [ONode.isProt] at hisp
    | delay i d ft o post => simp [ONode.isProt] at hisp
    | protocol i nm d nst nfi post =>
      have hfields : i = v.vid ∧ nm = v.vname ∧ d = v.vduration ∧
          nst = v.vstarted.map (· - t0) ∧ nfi = v.vfinished.map (· - t0) := by
        have := hvn
        simp only [viewOfO, viewToOpt] at this
        exact ⟨congrArg OView.wid this, congrArg OView.wname this,
          congrArg OView.wduration this, congrArg OView.wstarted this,
          congrArg OView.wfinished this⟩
      obtain ⟨hi, hnm, hd, hnst, hnfi⟩ := hfields
      rw [hs] at hnst
      rw [hf] at hnfi
      simp at hnst hnfi
      refine ⟨?_, ?_, ?_⟩
      · rw [finalModel_constraints]
        apply List.mem_append_left
        apply List.mem_flatMap.mpr
        exact ⟨_, hn, by rw [hnst, hi]; simp [protEmit]⟩
      · rw [finalModel_constraints]
        apply List.mem_append_left
        apply List.mem_flatMap.mpr
        refine ⟨_, hn, ?_⟩
        rw [hnst, hnfi, hi]
        simp [protEmit]
      · rw [finalModel_intervals]
        intro hmem
        obtain ⟨n', hn', hsome⟩ := List.mem_filterMap.mp hmem
        have hisp' : ONode.isProt n' = true := (List.mem_filter.mp hn').2
        cases n' with
        | start i' post' => simp [ONode.isProt] at hisp'
        | delay i' d' ft' o' post' => simp [ONode.isProt] at hisp'
        | protocol i' nm' d' nst' nfi' post' =>
          have hid' : i' = v.vid := by
            simp only [protInterval] at hsome
            rcases nst' with _ | s'
            · simpa using hsome
            · rcases nfi' with _ | f'
              · simpa using hsome
              · simp at hsome
          have heq : ONode.idOf (.protocol i' nm' d' nst' nfi' post') =
              ONode.idOf (.protocol i nm d nst nfi post) := by
            simp [ONode.idOf, hid', hi]
          have := List.inj_on_of_nodup_map hnd' hn' hn heq
          rw [this] at hsome
          simp only [protInterval, hnst, hnfi] at hsome
          exact Option.noConfusion hsome
  · intro v hv s hs hf
    obtain ⟨n, hn, hvn⟩ := hnode v hv
    have hisp : ONode.isProt n = true := (List.mem_filter.mp hn).2
    cases n with
    | start i post => simp [ONode.isProt] at hisp
    | delay i d ft o post => simp [ONode.isProt] at hisp
    | protocol i nm d nst nfi post =>
      have hfields : i = v.vid ∧ nst = v.vstarted.map (· - t0) ∧
          nfi = v.vfinished.map (· - t0) := by
        have := hvn
        simp only [viewOfO, viewToOpt] at this
        exact ⟨congrArg OView.wid this, congrArg OView.wstarted this,
          congrArg OView.wfinished this⟩
      obtain ⟨hi, hnst, hnfi⟩ := hfields
      rw [hs] at hnst
      rw [hf] at hnfi
      simp at hnst hnfi
      constructor
      · rw [finalModel_constraints]
        apply List.mem_append_left
        apply List.mem_flatMap.mpr
        exact ⟨_, hn, by rw [hnst, hi]; simp [protEmit]⟩
      · rw [finalModel_intervals]
        apply List.mem_filterMap.mpr
        refine ⟨_, hn, ?_⟩
        rw [hnst, hnfi, hi]
        simp [protInterval]

/-- C6 witness: the concrete graph `rootC6` with one finished protocol
(observed offsets 0 and 6) and one started-only protocol (offset 7). -/
theorem C6_witness :
    buildModel rootC6 200 =
        .ok (finalModel rootC6 optC6, optC6, getOldestTime (PTree.flat rootC6) 200) ∧
    (∀ v ∈ protViews rootC6, ∀ s f, v.vstarted = some s → v.vfinished = some f →
      Constr.eqC (.var (.startT v.vid))
          (.const (s - getOldestTime (PTree.flat rootC6) 200)) ∈
        (finalModel rootC6 optC6).constraints ∧
      Constr.eqC (.var (.finishT v.vid))
          (.const (f - getOldestTime (PTree.flat rootC6) 200)) ∈
        (finalModel rootC6 optC6).constraints ∧
      v.vid ∉ (finalModel rootC6 optC6).intervals) ∧
    (∀ v ∈ protViews rootC6, ∀ s, v.vstarted = some s → v.vfinished = none →
      Constr.eqC (.var (.startT v.vid))
          (.const (s - getOldestTime (PTree.flat rootC6) 200)) ∈
        (finalModel rootC6 optC6).constraints ∧
      v.vid ∈ (finalModel rootC6 optC6).intervals) :=
  C6_confirmed rootC6 200 optC6 (by decide) (by decide)

theorem ltSched_irrefl (a : Option Int) : ltSched a a = false := by
  cases a <;> simp [ltSched]

theorem ltSched_asymm (a b : Option Int) (h : ltSched a b = true) :
    ltSched b a = false := by
  cases a <;> cases b <;> simp [ltSched] at h ⊢
  omega

theorem ltSched_false_trans (a b c : Option Int) (h1 : ltSched a b = false)
    (h2 : ltSched b c = false) : ltSched a c = false := by
  cases a <;> cases b <;> cases c <;> simp [ltSched] at h1 h2 ⊢
  omega

theorem minFirst_mem : ∀ (ps : List PTree) (p : PTree), minFirst p ps ∈ p :: ps := by
  intro ps
  induction ps with
  | nil => intro p; simp [minFirst]
  | cons c cs ih =>
    intro p
    rw [show minFirst p (c :: cs) =
      minFirst (if ltSched (schedOf c) (schedOf p) then c else p) cs from rfl]
    rcases List.mem_cons.mp (ih (if ltSched (schedOf c) (schedOf p) then c else p)) with
      h1 | h2
    · rw [h1]
      by_cases hc : ltSched (schedOf c) (schedOf p) = true
      · rw [if_pos hc]
        exact List.mem_cons_of_mem _ (List.mem_cons_self _ _)
      · rw [if_neg hc]
        exact List.mem_cons_self _ _
    · exact List.mem_cons_of_mem _ (List.mem_cons_of_mem _ h2)

theorem minFirst_not_lt : ∀ (ps : List PTree) (p q : PTree), q ∈ p :: ps →
    ltSched (schedOf q) (schedOf (minFirst p ps)) = false := by
  intro ps
  induction ps with
  | nil =>
    intro p q hq
    simp only [List.mem_singleton] at hq
    subst hq
    simp [minFirst, ltSched_irrefl]
  | cons c cs ih =>
    intro p q hq
    rw [show minFirst p (c :: cs) =
      minFirst (if ltSched (schedOf c) (schedOf p) then c else p) cs from rfl]
    have hkeep := ih (if ltSched (schedOf c) (schedOf p) then c else p)
    rcases List.mem_cons.mp hq with h1 | h2
    · subst h1
      by_cases hc : ltSched (schedOf c) (schedOf q) = true
      · have hdrop : ltSched (schedOf q)
            (schedOf (if ltSched (schedOf c) (schedOf q) then c else q)) = false := by
          rw [if_pos hc]
          exact ltSched_asymm _ _ hc
        exact ltSched_false_trans _ _ _ hdrop
          (hkeep _ (List.mem_cons_self _ _))
      · have : (if ltSched (schedOf c) (schedOf q) then c else q) = q := if_neg hc
        rw [this] at hkeep ⊢
        exact hkeep q (List.mem_cons_self _ _)
    · rcases List.mem_cons.mp h2 with hc2 | hcs
      · subst hc2
        by_cases hc : ltSched (schedOf q) (schedOf p) = true
        · have : (if ltSched (schedOf q) (schedOf p) then q else p) = q := if_pos hc
          rw [this] at hkeep ⊢
          exact hkeep q (List.mem_cons_self _ _)
        · have hfalse : ltSched (schedOf q) (schedOf p) = false := by
            simp at hc
            exact hc
          have : (if ltSched (schedOf q) (schedOf p) then q else p) = p := if_neg hc
          rw [this] at hkeep ⊢
          exact ltSched_false_trans _ _ _ hfalse (hkeep p (List.mem_cons_self _ _))
      · exact hkeep q (List.mem_cons_of_mem _ hcs)

/-- C7 (amended): after a successful solve inside `Executor.optimize`, with
`U` the unstarted protocols of the rescheduled graphs: when `U` is empty the
call returns without enqueuing and **without persisting**; when `U` is
nonempty, the selected protocol is the first one with minimal
`scheduled_time` (absent sorts last) — if it has a scheduled time `t`,
exactly one token `(t, str(id))` is enqueued and the state is persisted, and
`t` is at or before every unstarted protocol's scheduled time; if it has no
scheduled time, the call fails (after the cancellation pass). -/
theorem C7_amended (st : ExecState) (mid ntid : Nat) (σ : Nat → Option Int) :
    (unstartedOf (schedGraphs σ st.graphs) = [] →
      executorOptimize st mid ntid (.ok σ) =
        (⟨schedGraphs σ st.graphs, ownPre (schedGraphs σ st.graphs),
          cancelLoop st.tasks, st.saved⟩, .ok ())) ∧
    (∀ p ps, unstartedOf (schedGraphs σ st.graphs) = p :: ps →
      (schedOf (minFirst p ps) = none →
        executorOptimize st mid ntid (.ok σ) =
          (⟨schedGraphs σ st.graphs, ownPre (schedGraphs σ st.graphs),
            cancelLoop st.tasks, st.saved⟩,
           .error "Next protocol has no scheduled time")) ∧
      (∀ t, schedOf (minFirst p ps) = some t →
        executorOptimize st mid ntid (.ok σ) =
          (⟨schedGraphs σ st.graphs, ownPre (schedGraphs σ st.graphs),
            addTaskList (cancelLoop st.tasks) ⟨t, ntid, toString (minFirst p ps).pid⟩,
            st.saved ++ [schedGraphs σ st.graphs]⟩, .ok ()) ∧
        minFirst p ps ∈ p :: ps ∧
        startedOf (minFirst p ps) = none ∧
        ∀ q ∈ p :: ps, ∀ s, schedOf q = some s → t ≤ s)) := by
  constructor
  · intro h
    simp only [executorOptimize, h]
  · intro p ps h
    constructor
    · intro hnone
      simp only [executorOptimize, h, hnone]
    · intro t ht
      refine ⟨?_, minFirst_mem ps p, ?_, ?_⟩
      · simp only [executorOptimize, h, ht]
      · have hmem : minFirst p ps ∈ unstartedOf (schedGraphs σ st.graphs) := by
          rw [h]
          exact minFirst_mem ps p
        have := (List.mem_filter.mp hmem).2
        exact Option.isNone_iff_eq_none.mp this
      · intro q hq s hsq
        have hnl := minFirst_not_lt ps p q hq
        rw [hsq, ht] at hnl
        simp [ltSched] at hnl
        omega

/-- C7 witness: the amended statement at a state with one unstarted protocol
scheduled at instant 9. -/
theorem C7_witness :
    executorOptimize stateC7w 100 200 (.ok fun _ => none) =
      (⟨schedGraphs (fun _ => none) stateC7w.graphs,
        ownPre (schedGraphs (fun _ => none) stateC7w.graphs),
        addTaskList (cancelLoop stateC7w.tasks)
          ⟨9, 200, toString (minFirst (.protocol 1 "P" 5 (some 9) none none []) []).pid⟩,
        stateC7w.saved ++ [schedGraphs (fun _ => none) stateC7w.graphs]⟩, .ok ()) ∧
    minFirst (.protocol 1 "P" 5 (some 9) none none []) [] ∈
      [(.protocol 1 "P" 5 (some 9) none none [] : PTree)] ∧
    startedOf (minFirst (.protocol 1 "P" 5 (some 9) none none []) []) = none ∧
    ∀ q ∈ [(.protocol 1 "P" 5 (some 9) none none [] : PTree)],
      ∀ s, schedOf q = some s → 9 ≤ s :=
  ((C7_amended stateC7w 100 200 (fun _ => none)).2
    (.protocol 1 "P" 5 (some 9) none none []) [] (by decide)).2 9 (by decide)

theorem mem_insertTask : ∀ (l : List ATask) (t x : ATask),
    x ∈ insertTask t l ↔ x = t ∨ x ∈ l := by
  intro l t x
  induction l with
  | nil => simp [insertTask]
  | cons a as ih =>
    by_cases hle : a.execTime ≤ t.execTime
    · simp only [insertTask, if_pos hle, List.mem_cons, ih]
      tauto
    · simp only [insertTask, if_neg hle, List.mem_cons]

theorem insertTask_append : ∀ (l : List ATask) (t : ATask),
    (∀ x ∈ l, x.execTime ≤ t.execTime) → insertTask t l = l ++ [t]
  | [], t, _ => by simp [insertTask]
  | a :: as, t, h => by
    have ha := h a (List.mem_cons_self _ _)
    simp only [insertTask, if_pos ha, List.cons_append]
    rw [insertTask_append as t fun x hx => h x (List.mem_cons_of_mem _ hx)]

theorem foldl_insert_sorted : ∀ (l acc : List ATask),
    (acc ++ l).Pairwise (fun a b => a.execTime ≤ b.execTime) →
    l.foldl (fun acc a => insertTask a acc) acc = acc ++ l
  | [], acc, _ => by simp
  | a :: as, acc, h => by
    have hacc : ∀ x ∈ acc, x.execTime ≤ a.execTime := by
      intro x hx
      exact (List.pairwise_append.mp h).2.2 x hx a (List.mem_cons_self _ _)
    simp only [List.foldl_cons]
    rw [insertTask_append acc a hacc]
    have hassoc : (acc ++ [a]) ++ as = acc ++ a :: as := by simp
    rw [foldl_insert_sorted as (acc ++ [a]) (by rw [hassoc]; exact h), hassoc]

theorem sortTasks_sorted_id (l : List ATask)
    (h : l.Pairwise fun a b => a.execTime ≤ b.execTime) : sortTasks l = l := by
  have := foldl_insert_sorted l [] (by simpa using h)
  simpa [sortTasks] using this

theorem addTaskList_sorted (l : List ATask) (t : ATask)
    (h : l.Pairwise fun a b => a.execTime ≤ b.execTime) :
    addTaskList l t = insertTask t l := by
  rw [addTaskList, sortTasks, List.foldl_append]
  simp only [List.foldl_cons, List.foldl_nil]
  rw [show List.foldl (fun acc a => insertTask a acc) [] l = sortTasks l from rfl]
  rw [sortTasks_sorted_id l h]

theorem pairwise_execLE_of_lexLT {l : List ATask} (h : l.Pairwise lexLT) :
    l.Pairwise fun a b => a.execTime ≤ b.execTime := by
  refine h.imp ?_
  intro a b hab
  rcases hab with h1 | ⟨h1, _⟩
  · exact le_of_lt h1
  · exact le_of_eq h1

theorem pairwise_lexLT_insertTask : ∀ (l : List ATask) (t : ATask),
    l.Pairwise lexLT → (∀ x ∈ l, x.tid < t.tid) → (insertTask t l).Pairwise lexLT
  | [], t, _, _ => by simp [insertTask]
  | a :: as, t, hp, hseq => by
    have hpa := List.pairwise_cons.mp hp
    by_cases hle : a.execTime ≤ t.execTime
    · simp only [insertTask, if_pos hle]
      apply List.pairwise_cons.mpr
      constructor
      · intro b hb
        rcases (mem_insertTask as t b).mp hb with hbt | hbas
        · subst hbt
          rcases lt_or_eq_of_le hle with h1 | h1
          · exact Or.inl h1
          · exact Or.inr ⟨h1, hseq a (List.mem_cons_self _ _)⟩
        · exact hpa.1 b hbas
      · exact pairwise_lexLT_insertTask as t hpa.2
          fun x hx => hseq x (List.mem_cons_of_mem _ hx)
    · simp only [insertTask, if_neg hle]
      apply List.pairwise_cons.mpr
      constructor
      · intro b hb
        have htlt : t.execTime < a.execTime := lt_of_not_le hle
        rcases List.mem_cons.mp hb with hba | hbas
        · subst hba
          exact Or.inl htlt
        · have hab : a.execTime ≤ b.execTime := by
            rcases hpa.1 b hbas with h1 | ⟨h1, _⟩
            · exact le_of_lt h1
            · exact le_of_eq h1
          exact Or.inl (lt_of_lt_of_le htlt hab)
      · exact hp

theorem stepA_inv (st : AState) (s : AStep) (hinv : InvA st)
    (hwt : ∀ e c, s = .add e c → st.now ≤ e) : InvA (stepA st s) := by
  obtain ⟨I1, I2, I3, I4, I5, I6⟩ := hinv
  cases s with
  | add e c =>
    have hnow := hwt e c rfl
    have hsorted := pairwise_execLE_of_lexLT I1
    simp only [stepA]
    rw [addTaskList_sorted _ _ hsorted]
    refine ⟨?_, ?_, I3, ?_, I5, ?_⟩
    · exact pairwise_lexLT_insertTask _ _ I1 fun x hx => I2 x hx
    · intro p hp
      rcases (mem_insertTask _ _ p).mp hp with hpt | hpold
      · subst hpt
        exact Nat.lt_succ_self _
      · exact Nat.lt_succ_of_lt (I2 p hpold)
    · intro y hy p hp
      rcases (mem_insertTask _ _ p).mp hp with hpt | hpold
      · subst hpt
        rcases lt_or_eq_of_le (le_trans (I5 y hy) hnow) with h1 | h1
        · exact Or.inl h1
        · exact Or.inr ⟨h1, I6 y hy⟩
      · exact I4 y hy p hpold
    · intro y hy
      exact Nat.lt_succ_of_lt (I6 y hy)
  | cancel i =>
    simp only [stepA]
    refine ⟨List.Pairwise.sublist (List.eraseP_sublist _) I1, ?_, I3, ?_, I5, I6⟩
    · intro p hp
      exact I2 p (List.mem_of_mem_eraseP hp)
    · intro y hy p hp
      exact I4 y hy p (List.mem_of_mem_eraseP hp)
  | advance d =>
    simp only [stepA]
    refine ⟨I1, I2, I3, I4, ?_, I6⟩
    intro y hy
    have := I5 y hy
    show y.execTime ≤ st.now + (d : Int)
    omega
  | consume =>
    cases hpend : st.pending with
    | nil =>
      simp only [stepA, hpend]
      exact ⟨I1, I2, I3, I4, I5, I6⟩
    | cons t rest =>
      have hcons := List.pairwise_cons.mp (hpend ▸ I1)
      by_cases hdue : t.execTime ≤ st.now
      · simp only [stepA, hpend, if_pos hdue]
        refine ⟨hcons.2, ?_, ?_, ?_, ?_, ?_⟩
        · intro p hp
          exact I2 p (by rw [hpend]; exact List.mem_cons_of_mem _ hp)
        · apply List.pairwise_append.mpr
          refine ⟨I3, by simp, ?_⟩
          intro y hy t' ht'
          simp only [List.mem_singleton] at ht'
          rw [ht']
          exact I4 y hy t (by rw [hpend]; exact List.mem_cons_self _ _)
        · intro y hy p hp
          rcases List.mem_append.mp hy with hyold | hyt
          · exact I4 y hyold p (by rw [hpend]; exact List.mem_cons_of_mem _ hp)
          · simp only [List.mem_singleton] at hyt
            rw [hyt]
            exact hcons.1 p hp
        · intro y hy
          rcases List.mem_append.mp hy with hyold | hyt
          · exact I5 y hyold
          · simp only [List.mem_singleton] at hyt
            rw [hyt]
            exact hdue
        · intro y hy
          rcases List.mem_append.mp hy with hyold | hyt
          · exact I6 y hyold
          · simp only [List.mem_singleton] at hyt
            rw [hyt]
            exact I2 t (by rw [hpend]; exact List.mem_cons_self _ _)
      · simp only [stepA, hpend, if_neg hdue]
        exact ⟨I1, I2, I3, I4, I5, I6⟩

theorem runA_inv : ∀ (steps : List AStep) (st : AState), InvA st →
    wellTimedA st.now steps = true → InvA (runA st steps)
  | [], _, hinv, _ => hinv
  | s :: rest, st, hinv, hwt => by
    have hstep : InvA (stepA st s) := by
      apply stepA_inv st s hinv
      intro e c hs
      subst hs
      simp only [wellTimedA, Bool.and_eq_true, decide_eq_true_eq] at hwt
      exact hwt.1
    have hrest : wellTimedA (stepA st s).now rest = true := by
      cases s with
      | add e c =>
        simp only [wellTimedA, Bool.and_eq_true] at hwt
        simpa [stepA] using hwt.2
      | cancel i => simpa [stepA, wellTimedA] using hwt
      | advance d => simpa [stepA, wellTimedA] using hwt
      | consume =>
        have hnow : (stepA st .consume).now = st.now := by
          simp only [stepA]
          cases st.pending with
          | nil => rfl
          | cons t rest' =>
            by_cases h : t.execTime ≤ st.now <;> simp [h]
        rw [hnow]
        simpa [wellTimedA] using hwt
    exact runA_inv rest (stepA st s) hstep hrest

theorem initA_inv : InvA initA := by
  refine ⟨?_, ?_, ?_, ?_, ?_, ?_⟩ <;> simp [initA]

/-- C8 (amended): provided every task is added at or after the instant of
its insertion, the tokens yielded by `wait_for_next_task` appear in strictly
increasing lexicographic order — non-decreasing `execution_time`, with equal
execution times in insertion (FIFO) order. -/
theorem C8_amended (steps : List AStep) (h : wellTimedA 0 steps = true) :
    (runA initA steps).yielded.Pairwise lexLT :=
  (runA_inv steps initA initA_inv h).2.2.1

/-- C8 witness: the amended statement on a concrete well-timed trace. -/
theorem C8_witness :
    wellTimedA 0 traceC8w = true ∧ (runA initA traceC8w).yielded.Pairwise lexLT :=
  ⟨by decide, C8_amended traceC8w (by decide)⟩

end Metasched
